/-
Verification of the SubtitleGenerator pipeline (src/editor/editor.py):
script detection, SRT timestamp conversion, word wrapping, SRT entry
generation, render-style selection, unique output filenames, and temp
cleanup.  Python string/float/stdlib behaviour is embedded shallowly:
strings are `String`/`List Char`, Python `float` seconds are modelled as
exact rationals, `os` path/filesystem state is passed explicitly.
-/
import Mathlib

namespace SubGen

/-! ### Character classes

`str.strip()` strips Python whitespace; `textwrap` recognises only the
six ASCII whitespace characters.  The `regex` script classes
(`\p{Arabic}`, `\p{Han}`, ...) are modelled by a single-valued
character-to-script table covering the principal Unicode blocks of the
scripts the program distinguishes; the Unicode Script property assigns
one script per character, which is what the table reflects.  Characters
outside the tabulated blocks map to `other`. -/

/-- Whitespace for Python `str.strip()` (`str.isspace` set). -/
def pyIsSpace (c : Char) : Bool :=
  let n := c.toNat
  (0x09 ≤ n && n ≤ 0x0d) || n == 0x20 || (0x1c ≤ n && n ≤ 0x1f) ||
  n == 0x85 || n == 0xa0 || n == 0x1680 || (0x2000 ≤ n && n ≤ 0x200a) ||
  n == 0x2028 || n == 0x2029 || n == 0x202f || n == 0x205f || n == 0x3000

/-- Whitespace for `textwrap` (`string.whitespace`: `\t\n\x0b\x0c\r` and space). -/
def twIsSpace (c : Char) : Bool :=
  let n := c.toNat
  (0x09 ≤ n && n ≤ 0x0d) || n == 0x20

/-- Python `str.strip()` on a character list. -/
def pyStrip (l : List Char) : List Char :=
  ((l.dropWhile pyIsSpace).reverse.dropWhile pyIsSpace).reverse

/-- Unicode scripts the classifier's regexes mention (plus `other`). -/
inductive UScript where
  | arabicS | han | hiragana | katakana | hangul | latin | cyrillic
  | common | inherited | other
deriving DecidableEq, Repr

/-- Script table: the principal Unicode blocks of each relevant script.
Model of the `regex` module's Unicode Script data. -/
def uscript (c : Char) : UScript :=
  let n := c.toNat
  if (0x41 ≤ n && n ≤ 0x5a) || (0x61 ≤ n && n ≤ 0x7a) ||
     (0xc0 ≤ n && n ≤ 0xd6) || (0xd8 ≤ n && n ≤ 0xf6) ||
     (0xf8 ≤ n && n ≤ 0x24f) then .latin
  else if (0x400 ≤ n && n ≤ 0x47f) || (0x48a ≤ n && n ≤ 0x4ff) ||
     (0x500 ≤ n && n ≤ 0x52f) then .cyrillic
  else if (0x620 ≤ n && n ≤ 0x63f) || (0x641 ≤ n && n ≤ 0x64a) ||
     (0x660 ≤ n && n ≤ 0x669) || (0x671 ≤ n && n ≤ 0x6d3) ||
     (0x750 ≤ n && n ≤ 0x77f) then .arabicS
  else if (0x4e00 ≤ n && n ≤ 0x9fff) || (0x3400 ≤ n && n ≤ 0x4dbf) then .han
  else if (0x3041 ≤ n && n ≤ 0x3096) || (0x309d ≤ n && n ≤ 0x309f) then .hiragana
  else if (0x30a1 ≤ n && n ≤ 0x30fa) || (0x30fd ≤ n && n ≤ 0x30ff) ||
     (0x31f0 ≤ n && n ≤ 0x31ff) then .katakana
  else if (0xac00 ≤ n && n ≤ 0xd7a3) || (0x1100 ≤ n && n ≤ 0x11ff) ||
     (0x3130 ≤ n && n ≤ 0x318f) then .hangul
  else if (n ≤ 0x40) || (0x5b ≤ n && n ≤ 0x60) || (0x7b ≤ n && n ≤ 0xa9) ||
     (0xab ≤ n && n ≤ 0xb9) || (0xbb ≤ n && n ≤ 0xbf) ||
     (0x2000 ≤ n && n ≤ 0x206f) || (0x3000 ≤ n && n ≤ 0x3004) then .common
  else if (0x300 ≤ n && n ≤ 0x36f) then .inherited
  else .other

/-- The classifier's result categories. -/
inductive ScriptCat where
  | arabic | asian | latinCyrillic
deriving DecidableEq, Repr

/-- Membership in `[\p{Arabic}\p{Common}\p{Inherited}]`. -/
def inArabicClass (c : Char) : Bool :=
  uscript c == .arabicS || uscript c == .common || uscript c == .inherited

/-- Membership in `[\p{Han}\p{Hiragana}\p{Katakana}\p{Hangul}\p{Common}\p{Inherited}]`. -/
def inAsianClass (c : Char) : Bool :=
  uscript c == .han || uscript c == .hiragana || uscript c == .katakana ||
  uscript c == .hangul || uscript c == .common || uscript c == .inherited

/-- Membership in `[\p{Latin}\p{Cyrillic}\p{Common}\p{Inherited}]`. -/
def inLatinClass (c : Char) : Bool :=
  uscript c == .latin || uscript c == .cyrillic || uscript c == .common ||
  uscript c == .inherited

/-- A character strictly of the Arabic script (`regex.search(r"\p{Arabic}", _)`). -/
def strictArabic (c : Char) : Bool := uscript c == .arabicS

/-- A character strictly of Han/Hiragana/Katakana/Hangul. -/
def strictAsian (c : Char) : Bool :=
  uscript c == .han || uscript c == .hiragana || uscript c == .katakana ||
  uscript c == .hangul

/-- A character strictly of Latin or Cyrillic. -/
def strictLatin (c : Char) : Bool :=
  uscript c == .latin || uscript c == .cyrillic

/-- `SubtitleGenerator.detect_script` on a character list: strip, return
`none` on empty, then test Arabic, asian, Latin/Cyrillic in that order;
each test is a full match of the script's class (the stripped text being
nonempty, `fullmatch` of `[...]+` is `all`) plus a search for a strict
script character. -/
def detectScriptL (l : List Char) : Option ScriptCat :=
  let t := pyStrip l
  if t.isEmpty then none
  else if t.all inArabicClass && t.any strictArabic then some .arabic
  else if t.all inAsianClass && t.any strictAsian then some .asian
  else if t.all inLatinClass && t.any strictLatin then some .latinCyrillic
  else none

/-- `SubtitleGenerator.detect_script`. -/
def detect_script (s : String) : Option ScriptCat := detectScriptL s.data

example : detect_script "Hello, world!" = some .latinCyrillic := by decide
example : detect_script "Привет!" = some .latinCyrillic := by decide
example : detect_script "你好" = some .asian := by decide
example : detect_script "こんにちは" = some .asian := by decide
example : detect_script "مرحبا" = some .arabic := by decide
example : detect_script "" = none := by decide
example : detect_script "   " = none := by decide
example : detect_script "!?." = none := by decide
example : detect_script "abc你" = none := by decide

/-! ### Decimal rendering and Python integer formatting

Models of `str(n)` / f-string `{n:0k}` formatting, needed by
`convert_time_to_srt_format` and `get_unique_filename`. -/

/-- One decimal digit character. -/
def digitChar (d : Nat) : Char :=
  match d with
  | 0 => '0' | 1 => '1' | 2 => '2' | 3 => '3' | 4 => '4'
  | 5 => '5' | 6 => '6' | 7 => '7' | 8 => '8' | 9 => '9'
  | _ => '*'

/-- Decimal digits of `n`, most significant first (fuelled; `fuel > n` suffices). -/
def natReprAux : Nat → Nat → List Char
  | 0, _ => []
  | fuel + 1, n =>
    if n < 10 then [digitChar n]
    else natReprAux fuel (n / 10) ++ [digitChar (n % 10)]

/-- Decimal rendering of a natural number (`str(n)`). -/
def natRepr (n : Nat) : List Char := natReprAux (n + 1) n

/-- Decimal value of a digit string; left inverse of `natRepr`. -/
def natVal (l : List Char) : Nat :=
  l.foldl (fun a c => a * 10 + (c.toNat - 48)) 0

/-- Left-pad with `'0'` to width `w` (f-string `{n:0w}` on a nonnegative value). -/
def padZeros (w : Nat) (l : List Char) : List Char :=
  List.replicate (w - l.length) '0' ++ l

/-- f-string `{n:0w}` on an integer: Python places the sign before the
zero padding. -/
def pyFmtInt (w : Nat) (n : Int) : List Char :=
  if n < 0 then '-' :: padZeros (w - 1) (natRepr n.natAbs)
  else padZeros w (natRepr n.toNat)

/-! ### `convert_time_to_srt_format`

Python `float` seconds are modelled as exact rationals; the builtin
`round` is round-half-to-even (banker's rounding), and `divmod` is
floor division/modulus. -/

/-- Python 3 builtin `round` to an integer: round half to even. -/
def pyRound (q : ℚ) : ℤ :=
  let f := ⌊q⌋
  let r := q - (f : ℚ)
  if r < 1/2 then f
  else if 1/2 < r then f + 1
  else if f % 2 == 0 then f else f + 1

/-- `SubtitleGenerator.convert_time_to_srt_format`: round to total
milliseconds, then `divmod` through seconds, minutes, hours, and format
as `HH:MM:SS,mmm`. -/
def convert_time_to_srt_format (time : ℚ) : String :=
  let total_milliseconds := pyRound (time * 1000)
  let seconds := total_milliseconds.ediv 1000
  let milliseconds := total_milliseconds.emod 1000
  let minutes := seconds.ediv 60
  let seconds' := seconds.emod 60
  let hours := minutes.ediv 60
  let minutes' := minutes.emod 60
  ⟨pyFmtInt 2 hours ++ ':' :: pyFmtInt 2 minutes' ++ ':' :: pyFmtInt 2 seconds'
    ++ ',' :: pyFmtInt 3 milliseconds⟩

/-- The spec's description of the conversion with the *correct* rounding
mode (round half to even), written by direct field formulas rather than
the code's cascading `divmod`: hours = ms / 3600000, minutes =
ms / 60000 mod 60, seconds = ms / 1000 mod 60, milliseconds = ms mod
1000. -/
def srtFormatSpecHalfEven (time : ℚ) : String :=
  let ms := pyRound (time * 1000)
  ⟨pyFmtInt 2 (ms.ediv 3600000) ++ ':' :: pyFmtInt 2 ((ms.ediv 60000).emod 60)
    ++ ':' :: pyFmtInt 2 ((ms.ediv 1000).emod 60) ++ ',' :: pyFmtInt 3 (ms.emod 1000)⟩

/-- Round half away from zero, the rounding mode the spec claims. -/
def roundHalfAwayFromZero (q : ℚ) : ℤ :=
  if q < 0 then -⌊-q + 1/2⌋ else ⌊q + 1/2⌋

/-- Modelled from the spec: the conversion as the spec words it, with
round-half-away-from-zero millisecond rounding followed by the cascading
floor division. -/
def srtFormatSpecHalfAway (time : ℚ) : String :=
  let ms := roundHalfAwayFromZero (time * 1000)
  ⟨pyFmtInt 2 (ms.ediv 3600000) ++ ':' :: pyFmtInt 2 ((ms.ediv 60000).emod 60)
    ++ ':' :: pyFmtInt 2 ((ms.ediv 1000).emod 60) ++ ',' :: pyFmtInt 3 (ms.emod 1000)⟩

/-- `round` is the identity on integers. -/
theorem pyRound_intCast (n : ℤ) : pyRound (n : ℚ) = n := by
  simp [pyRound]

/-- `round` on an exact half: to the even neighbour. -/
theorem pyRound_int_add_half (n : ℤ) :
    pyRound ((n : ℚ) + 1/2) = if n % 2 = 0 then n else n + 1 := by
  simp only [pyRound]
  have hf : ⌊(n : ℚ) + 1/2⌋ = n := by
    rw [add_comm, Int.floor_add_int]
    norm_num
  rw [hf]
  norm_num

/-- Evaluation: 5.25 seconds. -/
theorem convert_time_quarter : convert_time_to_srt_format (21/4) = "00:00:05,250" := by
  have h : pyRound ((21 : ℚ)/4 * 1000) = 5250 := by
    have he : ((21 : ℚ)/4 * 1000) = ((5250 : ℤ) : ℚ) := by norm_num
    rw [he, pyRound_intCast]
  simp only [convert_time_to_srt_format]
  rw [h]
  decide

/-- Evaluation: 3599.9995 seconds; the half millisecond lands on an odd
neighbour, so rounding to even carries into the hours field. -/
theorem convert_time_almost_hour :
    convert_time_to_srt_format (7199999/2000) = "01:00:00,000" := by
  have h : pyRound ((7199999 : ℚ)/2000 * 1000) = 3600000 := by
    have he : ((7199999 : ℚ)/2000 * 1000) = ((3599999 : ℤ) : ℚ) + 1/2 := by norm_num
    rw [he, pyRound_int_add_half]
    decide
  simp only [convert_time_to_srt_format]
  rw [h]
  decide

/-- Evaluation: 0.0005 seconds is half a millisecond, and the code's
banker's rounding sends it down to zero. -/
theorem convert_time_half_ms : convert_time_to_srt_format (1/2000) = "00:00:00,000" := by
  have h : pyRound ((1 : ℚ)/2000 * 1000) = 0 := by
    have he : ((1 : ℚ)/2000 * 1000) = ((0 : ℤ) : ℚ) + 1/2 := by norm_num
    rw [he, pyRound_int_add_half]
    decide
  simp only [convert_time_to_srt_format]
  rw [h]
  decide

/-- Evaluation: round-half-away-from-zero would send 0.0005 seconds up. -/
theorem halfAway_half_ms : srtFormatSpecHalfAway (1/2000) = "00:00:00,001" := by
  have h : roundHalfAwayFromZero ((1 : ℚ)/2000 * 1000) = 1 := by
    simp only [roundHalfAwayFromZero]
    rw [if_neg (by norm_num)]
    have he : ((1 : ℚ)/2000 * 1000) + 1/2 = ((1 : ℤ) : ℚ) := by norm_num
    rw [he, Int.floor_intCast]
  simp only [srtFormatSpecHalfAway]
  rw [h]
  decide

/-- `pyRound` of a nonnegative rational is nonnegative. -/
theorem pyRound_nonneg (q : ℚ) (h : 0 ≤ q) : 0 ≤ pyRound q := by
  have hf : (0 : ℤ) ≤ ⌊q⌋ := Int.floor_nonneg.mpr h
  simp only [pyRound]
  split_ifs <;> omega

/-- Evaluation: time 0 gives the zero timestamp. -/
theorem convert_time_zero : convert_time_to_srt_format 0 = "00:00:00,000" := by
  have h : pyRound ((0 : ℚ) * 1000) = 0 := by
    rw [zero_mul, show ((0 : ℚ)) = ((0 : ℤ) : ℚ) by norm_num, pyRound_intCast]
  simp only [convert_time_to_srt_format]
  rw [h]
  decide

/-- Cascading floor division reaches the hours field in one step. -/
theorem ediv_chain_hours (k : ℕ) :
    (((k : ℤ).ediv 1000).ediv 60).ediv 60 = (k : ℤ).ediv 3600000 := by
  have h1 : (k : ℤ).ediv 1000 = ((k / 1000 : ℕ) : ℤ) := rfl
  have h2 : ((k / 1000 : ℕ) : ℤ).ediv 60 = ((k / 1000 / 60 : ℕ) : ℤ) := rfl
  have h3 : ((k / 1000 / 60 : ℕ) : ℤ).ediv 60 = ((k / 1000 / 60 / 60 : ℕ) : ℤ) := rfl
  have h4 : (k : ℤ).ediv 3600000 = ((k / 3600000 : ℕ) : ℤ) := rfl
  rw [h1, h2, h3, h4]
  norm_num [Nat.div_div_eq_div_mul]

/-- Cascading floor division reaches the minutes field in one step. -/
theorem ediv_chain_minutes (k : ℕ) :
    (((k : ℤ).ediv 1000).ediv 60).emod 60 = ((k : ℤ).ediv 60000).emod 60 := by
  have h1 : (k : ℤ).ediv 1000 = ((k / 1000 : ℕ) : ℤ) := rfl
  have h2 : ((k / 1000 : ℕ) : ℤ).ediv 60 = ((k / 1000 / 60 : ℕ) : ℤ) := rfl
  have h3 : (k : ℤ).ediv 60000 = ((k / 60000 : ℕ) : ℤ) := rfl
  rw [h1, h2, h3]
  norm_num [Nat.div_div_eq_div_mul]

/-! ### `textwrap.fill` with the default options

`generate_srt` wraps each segment with `textwrap.fill(text.strip(),
width)`.  The defaults in play: `expand_tabs`, `replace_whitespace`,
`drop_whitespace`, `break_long_words` all true, empty indents.  The
chunk splitter below is `TextWrapper._split`'s behaviour on text without
`'-'` characters, where `wordsep_re` degenerates to alternating runs of
whitespace and non-whitespace; theorems about wrapping therefore carry a
no-hyphen hypothesis. -/

/-- `str.expandtabs(8)`: each tab becomes spaces up to the next multiple
of 8; newline and carriage return reset the column. -/
def expandTabsAux : List Char → Nat → List Char
  | [], _ => []
  | c :: l, col =>
    if c = '\t' then
      let k := 8 - col % 8
      List.replicate k ' ' ++ expandTabsAux l (col + k)
    else if c = '\n' ∨ c = '\r' then c :: expandTabsAux l 0
    else c :: expandTabsAux l (col + 1)

/-- `str.expandtabs(8)` from column 0. -/
def expandTabs (l : List Char) : List Char := expandTabsAux l 0

/-- `TextWrapper._munge_whitespace`: expand tabs, then turn each
`textwrap` whitespace character into a plain space. -/
def munge (l : List Char) : List Char :=
  (expandTabs l).map (fun c => if twIsSpace c then ' ' else c)

/-- Split into maximal runs of spaces / non-spaces (`_split` after
munging, on hyphen-free text); `acc` holds the current run reversed. -/
def chunksAux : List Char → List Char → List (List Char)
  | [], acc => if acc.isEmpty then [] else [acc.reverse]
  | c :: l, acc =>
    match acc with
    | [] => chunksAux l [c]
    | a :: _ =>
      if (c == ' ') == (a == ' ') then chunksAux l (c :: acc)
      else acc.reverse :: chunksAux l [c]

/-- Chunks of a munged text. -/
def toChunks (l : List Char) : List (List Char) := chunksAux l []

/-- A chunk that counts as whitespace for dropping: `chunk.strip() == ''`. -/
def isWSChunk (ch : List Char) : Bool := (pyStrip ch).isEmpty

/-- The inner greedy loop of `_wrap_chunks`: take chunks while the line
stays within `width`. -/
def takeLine (width : Nat) : List (List Char) → Nat → List (List Char) × List (List Char)
  | [], _ => ([], [])
  | ch :: rest, curLen =>
    if curLen + ch.length ≤ width then
      let p := takeLine width rest (curLen + ch.length)
      (ch :: p.1, p.2)
    else ([], ch :: rest)

/-- Start of an outer `_wrap_chunks` iteration: drop a leading
whitespace chunk, except on the first line. -/
def dropLeadingWS (first : Bool) (chunks : List (List Char)) : List (List Char) :=
  match chunks with
  | ch :: rest => if !first && isWSChunk ch then rest else ch :: rest
  | [] => []

/-- `_handle_long_word` with `break_long_words` set and no hyphen in the
chunk: when the next chunk is longer than a whole line, chop off what
still fits (at least one character on a degenerate width). -/
def handleLongWord (width : Nat) (cur rest : List (List Char)) :
    List (List Char) × List (List Char) :=
  match rest with
  | ch :: rest' =>
    if width < ch.length then
      let curLen := (cur.map List.length).sum
      let spaceLeft := if width < 1 then 1 else width - curLen
      (cur ++ [ch.take spaceLeft], ch.drop spaceLeft :: rest')
    else (cur, ch :: rest')
  | [] => (cur, [])

/-- End of an iteration: drop a trailing whitespace chunk from the line. -/
def dropTrailingWS (cur : List (List Char)) : List (List Char) :=
  match cur.getLast? with
  | some lastC => if isWSChunk lastC then cur.dropLast else cur
  | none => cur

/-- One iteration of `_wrap_chunks`' outer loop: optionally drop a
leading whitespace chunk (not on the first line), take greedily,
chop a chunk longer than the whole line, drop a trailing whitespace
chunk, and emit the line if nonempty. -/
def wrapStep (width : Nat) (first : Bool) (chunks : List (List Char)) :
    Option (List Char) × List (List Char) :=
  let chunks₁ := dropLeadingWS first chunks
  let p := takeLine width chunks₁ 0
  let q := handleLongWord width p.1 p.2
  let cur₃ := dropTrailingWS q.1
  (if cur₃.isEmpty then none else some cur₃.flatten, q.2)

/-- `_wrap_chunks`' outer loop, fuelled; each iteration consumes a chunk
or shortens one, so `chunksMeasure + 1` fuel always suffices. -/
def wrapLoop (width : Nat) : Nat → List (List Char) → List (List Char) → List (List Char)
  | 0, _, acc => acc.reverse
  | _ + 1, [], acc => acc.reverse
  | fuel + 1, ch :: chs, acc =>
    let p := wrapStep width acc.isEmpty (ch :: chs)
    match p.1 with
    | some line => wrapLoop width fuel p.2 (line :: acc)
    | none => wrapLoop width fuel p.2 acc

/-- Termination measure: total characters plus number of chunks. -/
def chunksMeasure (chunks : List (List Char)) : Nat :=
  (chunks.map List.length).sum + chunks.length

/-- `textwrap.wrap(text, width)` with the default options (hyphen-free
splitting). -/
def textwrapWrap (text : List Char) (width : Nat) : List (List Char) :=
  let chunks := toChunks (munge text)
  wrapLoop width (chunksMeasure chunks + 1) chunks []

/-- `textwrap.fill(text, width)`: the wrapped lines joined by `'\n'`. -/
def textwrapFill (text : List Char) (width : Nat) : List Char :=
  List.intercalate ['\n'] (textwrapWrap text width)

/-- Whitespace-normalised word sequence of a text (split on `textwrap`
whitespace, dropping empties); `acc` is the current word reversed. -/
def wordsAux : List Char → List Char → List (List Char)
  | [], acc => if acc.isEmpty then [] else [acc.reverse]
  | c :: l, acc =>
    if twIsSpace c then
      if acc.isEmpty then wordsAux l [] else acc.reverse :: wordsAux l []
    else wordsAux l (c :: acc)

/-- The words of a text. -/
def wordsOf (l : List Char) : List (List Char) := wordsAux l []

example : textwrapFill "Hello world".data 65 = "Hello world".data := by decide
example : textwrapFill "a  b".data 65 = "a  b".data := by decide
example : textwrapFill "Hello brave new world".data 11 = "Hello brave\nnew world".data := by decide
example : textwrapFill "aaaaa".data 3 = "aaa\naa".data := by decide
example : wordsOf "  Hello   world ".data = ["Hello".data, "world".data] := by decide
example : textwrapFill "ab   cd".data 3 = "ab\ncd".data := by decide
example : textwrapFill "ab  cdef".data 4 = "ab\ncdef".data := by decide
example : textwrapFill "abcdefgh x".data 3 = "abc\ndef\ngh\nx".data := by decide
example : textwrapFill "ab cdefg".data 2 = "ab\ncd\nef\ng".data := by decide
example : textwrapFill "ab cdefg".data 3 = "ab \ncde\nfg".data := by decide
example : textwrapFill "  leading".data 5 = "  lea\nding".data := by decide
example : textwrapFill "word  ".data 5 = "word".data := by decide
example : textwrapFill "a b c d e".data 3 = "a b\nc d\ne".data := by decide
example : textwrapFill "abc".data 1 = "a\nb\nc".data := by decide
example : textwrapFill "aaaa bb".data 1 = "a\na\na\na\nb\nb".data := by decide

/-! ### `generate_srt`

The transcription segments (external model output) and the optional
translator (external API) are inputs; the subtitle entries the loop
writes are the output.  File writing is modelled by returning the
entries / the rendered file text; a raised exception is `Except.error`. -/

/-- A transcription segment `{id, start, end, text}`. -/
structure Segment where
  id : Nat
  start : ℚ
  endTime : ℚ
  text : String

/-- One block written to the subtitle file. -/
structure SubtitleEntry where
  index : Nat
  startCode : String
  endCode : String
  formattedText : String
deriving DecidableEq, Repr

/-- The body of `generate_srt`'s loop for one segment: translate when a
target language is set, wrap the stripped text, convert the timestamps,
and number the entry with `id + 1`. -/
def mkEntry (translate : Option (String → String)) (width : Nat) (seg : Segment) :
    SubtitleEntry :=
  let text := match translate with | some tr => tr seg.text | none => seg.text
  { index := seg.id + 1
    startCode := convert_time_to_srt_format seg.start
    endCode := convert_time_to_srt_format seg.endTime
    formattedText := ⟨textwrapFill (pyStrip text.data) width⟩ }

/-- The width-selection chain at the top of `generate_srt`. -/
def chooseWidth (example_string : String) : Except String Nat :=
  if detect_script example_string = some .latinCyrillic then .ok 65
  else if detect_script example_string = some .asian then .ok 22
  else if detect_script example_string = some .arabic then .ok 30
  else .error ("Could not define language font usage for " ++ example_string)

/-- A segment's text after the optional translation step. -/
def sampleText (translate : Option (String → String)) (seg : Segment) : String :=
  match translate with | some tr => tr seg.text | none => seg.text

/-- `SubtitleGenerator.generate_srt` on a segment list: sample the first
segment (translated when a target language is set), choose the width,
then emit one entry per segment; `segments[0]` on an empty list raises. -/
def generate_srt (translate : Option (String → String)) (segments : List Segment) :
    Except String (List SubtitleEntry) :=
  match segments with
  | [] => .error "list index out of range"
  | s0 :: _ =>
    let example_string := sampleText translate s0
    match chooseWidth example_string with
    | .error e => .error e
    | .ok width => .ok (segments.map (mkEntry translate width))

/-- One rendered block of the subtitle file:
`{index}\n{start} --> {end}\n{wrapped text}\n\n`. -/
def renderEntry (e : SubtitleEntry) : String :=
  (⟨natRepr e.index⟩ : String) ++ "\n" ++ e.startCode ++ " --> " ++ e.endCode
    ++ "\n" ++ e.formattedText ++ "\n\n"

/-- The whole subtitle file. -/
def renderSrt (entries : List SubtitleEntry) : String :=
  String.join (entries.map renderEntry)

/-! ### `apply_subtitles`: render-style selection -/

/-- The font table `SubtitleGenerator.FONTS`. -/
def FONTS (c : ScriptCat) : String :=
  match c with
  | .latinCyrillic => "./fonts/Roboto-Regular.ttf"
  | .asian => "./fonts/NotoSansSC.ttf"
  | .arabic => "./fonts/NotoSansArabic.ttf"

/-- Python text-file line iteration: split after each `'\n'`, keeping
it; a final piece without a newline is kept when nonempty. -/
def fileLinesAux : List Char → List Char → List (List Char)
  | [], acc => if acc.isEmpty then [] else [acc.reverse]
  | c :: l, acc =>
    if c = '\n' then (acc.reverse ++ ['\n']) :: fileLinesAux l []
    else fileLinesAux l (c :: acc)

/-- The lines of a file's content. -/
def fileLines (l : List Char) : List (List Char) := fileLinesAux l []

/-- The style-selection block of `apply_subtitles`: read the first three
lines of the written subtitle file, classify `lines[2]`, and map the
category to the font asset, font size and stroke width. -/
def selectRenderStyle (content : String) : Except String (String × Nat × Nat) :=
  match (fileLines content.data).get? 2 with
  | none => .error "list index out of range"
  | some line =>
    let text : String := ⟨line⟩
    if detect_script text = some .latinCyrillic then .ok (FONTS .latinCyrillic, 32, 3)
    else if detect_script text = some .asian then .ok (FONTS .asian, 36, 6)
    else if detect_script text = some .arabic then .ok (FONTS .arabic, 34, 4)
    else .error ("Could not define language usage font for " ++ text)

/-! ### `get_unique_filename`

`os.path.exists` is modelled by membership in an explicit list of
existing paths.  The `while True` search is fuelled with
`|fs| + 1` attempts, enough by pigeonhole to reach a free name. -/

/-- Index of the last occurrence of `c` (`str.rfind`), `-1` when absent. -/
def rfindAux : List Char → Char → Nat → Int → Int
  | [], _, _, best => best
  | x :: l, c, i, best => rfindAux l c (i + 1) (if x = c then i else best)

/-- `str.rfind` over a whole string. -/
def rfind (l : List Char) (c : Char) : Int := rfindAux l c 0 (-1)

/-- `str.rstrip('/')`. -/
def rstripSlash (l : List Char) : List Char :=
  (l.reverse.dropWhile (· = '/')).reverse

/-- `posixpath.split`: cut after the last `'/'`; a head that is not all
slashes loses its trailing slashes. -/
def osPathSplit (p : String) : String × String :=
  let l := p.data
  let i := (rfind l '/' + 1).toNat
  let head := l.take i
  let tail := l.drop i
  let head' := if head.isEmpty || head.all (· = '/') then head else rstripSlash head
  (⟨head'⟩, ⟨tail⟩)

/-- `posixpath.splitext`: split at the last dot, unless it lies before
the last slash or only leading dots of the basename precede it. -/
def osPathSplitext (p : String) : String × String :=
  let l := p.data
  let sepIndex := rfind l '/'
  let dotIndex := rfind l '.'
  if sepIndex < dotIndex then
    let between := (l.drop (sepIndex + 1).toNat).take (dotIndex - sepIndex - 1).toNat
    if between.all (· = '.') then (p, "")
    else (⟨l.take dotIndex.toNat⟩, ⟨l.drop dotIndex.toNat⟩)
  else (p, "")

/-- `posixpath.join` of a directory and a name. -/
def osPathJoin (directory b : String) : String :=
  if b.data.head? == some '/' then b
  else if directory.data.isEmpty || (directory.data.getLast? == some '/') then directory ++ b
  else directory ++ "/" ++ b

/-- The candidate filename `f"{name} ({counter}){ext}"`. -/
def candidateName (name ext : String) (counter : Nat) : String :=
  name ++ " (" ++ (⟨natRepr counter⟩ : String) ++ ")" ++ ext

/-- The `while True` loop of `get_unique_filename`, fuelled. -/
def uniqueLoop (fs : List String) (directory name ext : String) : Nat → Nat → String
  | 0, counter => osPathJoin directory (candidateName name ext counter)
  | fuel + 1, counter =>
    let new_path := osPathJoin directory (candidateName name ext counter)
    if fs.contains new_path then uniqueLoop fs directory name ext fuel (counter + 1)
    else new_path

/-- `SubtitleGenerator.get_unique_filename` over the existing-path list `fs`. -/
def get_unique_filename (fs : List String) (path : String) : String :=
  if !(fs.contains path) then path
  else
    let sp := osPathSplit path
    let se := osPathSplitext sp.2
    uniqueLoop fs sp.1 se.1 se.2 (fs.length + 1) 1

example : get_unique_filename [] "out.mp4" = "out.mp4" := by decide
example : get_unique_filename ["out.mp4"] "out.mp4" = "out (1).mp4" := by decide
example : get_unique_filename ["out.mp4", "out (1).mp4"] "out.mp4" = "out (2).mp4" := by decide
example : get_unique_filename ["a/out.mp4"] "a/out.mp4" = "a/out (1).mp4" := by decide
example : osPathSplit "a//b/c.mp4" = ("a//b", "c.mp4") := by decide
example : osPathSplitext ".bashrc" = (".bashrc", "") := by decide
example : osPathSplitext "a.b/c" = ("a.b/c", "") := by decide
example : osPathSplitext "..x.y" = ("..x", ".y") := by decide

/-! ### `clean_temp`

The temp directory is `none` when it does not exist, otherwise the list
of its entries (`os.listdir` snapshot).  Removing by name models
`os.remove` / `shutil.rmtree` on the entry's path. -/

/-- What an entry of the temp directory can be. -/
inductive FsKind where
  | file | symlink | dir
deriving DecidableEq, Repr

/-- A directory entry. -/
structure FsEntry where
  name : String
  kind : FsKind
deriving DecidableEq, Repr

/-- One iteration of `clean_temp`'s loop: files and symlinks go through
`os.remove`, directories through `shutil.rmtree`; each deletes the
entry with the item's name. -/
def removeEntry (entries : List FsEntry) (item : FsEntry) : List FsEntry :=
  match item.kind with
  | .file => entries.filter (fun e => e.name != item.name)
  | .symlink => entries.filter (fun e => e.name != item.name)
  | .dir => entries.filter (fun e => e.name != item.name)

/-- `SubtitleGenerator.clean_temp`: raise when the temp directory does
not exist, otherwise delete every listed entry, keeping the directory. -/
def clean_temp (temp : Option (List FsEntry)) : Except String (Option (List FsEntry)) :=
  match temp with
  | none => .error "temp directory does not exist"
  | some entries => .ok (some (entries.foldl removeEntry entries))

example : clean_temp (some [⟨"subs.srt", .file⟩, ⟨"x", .dir⟩]) = .ok (some []) := rfl

/-! ## Theorems -/

/-- Removal is by name, whatever the entry kind. -/
theorem removeEntry_eq_filter (s : List FsEntry) (i : FsEntry) :
    removeEntry s i = s.filter (fun x => x.name != i.name) := by
  cases hk : i.kind <;> simp [removeEntry, hk]

/-- An entry surviving the cleanup fold was present initially and its name
differs from every processed item's name. -/
theorem mem_foldl_removeEntry (items : List FsEntry) :
    ∀ (s : List FsEntry) (e : FsEntry), e ∈ items.foldl removeEntry s →
      e ∈ s ∧ ∀ item ∈ items, e.name ≠ item.name := by
  induction items with
  | nil =>
    intro s e h
    simp only [List.foldl_nil] at h
    exact ⟨h, by simp⟩
  | cons i items ih =>
    intro s e h
    rw [List.foldl_cons] at h
    obtain ⟨h1, h2⟩ := ih _ e h
    rw [removeEntry_eq_filter, List.mem_filter] at h1
    obtain ⟨hs, hname⟩ := h1
    refine ⟨hs, ?_⟩
    intro item him
    rcases List.mem_cons.mp him with hitem | hitem
    · subst hitem
      simpa using hname
    · exact h2 item hitem

/-- C9: `clean_temp` deletes every file, symlink and subdirectory inside the
temp directory while the directory itself stays in place, and raises
`FileNotFoundError` when the temp directory does not exist. -/
theorem clean_temp_spec :
    clean_temp none = .error "temp directory does not exist" ∧
    ∀ entries, clean_temp (some entries) = .ok (some []) := by
  refine ⟨rfl, ?_⟩
  intro entries
  simp only [clean_temp]
  have hnil : entries.foldl removeEntry entries = [] := by
    rw [List.eq_nil_iff_forall_not_mem]
    intro e he
    obtain ⟨h1, h2⟩ := mem_foldl_removeEntry entries entries e he
    exact h2 e h1 rfl
  rw [hnil]

/-- C6: `apply_subtitles` selects the render style from the script of the
third line of the written subtitle file — latin-cyrillic gives font size 32
and stroke width 3, asian 36/6, arabic 34/4 — and raises when that line's
script is undetermined. -/
theorem selectRenderStyle_spec (content : String) (line : List Char)
    (h : (fileLines content.data).get? 2 = some line) :
    (detect_script ⟨line⟩ = some .latinCyrillic →
      selectRenderStyle content = .ok (FONTS .latinCyrillic, 32, 3)) ∧
    (detect_script ⟨line⟩ = some .asian →
      selectRenderStyle content = .ok (FONTS .asian, 36, 6)) ∧
    (detect_script ⟨line⟩ = some .arabic →
      selectRenderStyle content = .ok (FONTS .arabic, 34, 4)) ∧
    (detect_script ⟨line⟩ = none →
      selectRenderStyle content =
        .error ("Could not define language usage font for " ++ (⟨line⟩ : String))) := by
  simp only [selectRenderStyle, h]
  refine ⟨?_, ?_, ?_, ?_⟩ <;> intro hs <;> simp [hs]

/-- C6 witness: a latin-cyrillic third line and an undetermined third line. -/
theorem selectRenderStyle_spec_witness :
    selectRenderStyle "1\n00:00:01,000 --> 00:00:03,000\nHello world\n\n" =
      .ok (FONTS .latinCyrillic, 32, 3) ∧
    selectRenderStyle "1\n00:00:01,000 --> 00:00:03,000\n!?.\n\n" =
      .error ("Could not define language usage font for " ++ "!?.\n") :=
  ⟨(selectRenderStyle_spec _ "Hello world\n".data (by decide)).1 (by decide),
   (selectRenderStyle_spec _ "!?.\n".data (by decide)).2.2.2 (by decide)⟩

/-- C4: `generate_srt` determines the wrap width once from the first
segment's (possibly translated) text — latin-cyrillic gives 65, asian 22,
arabic 30 — and when that sample's script is undetermined it raises,
producing no subtitle entries. -/
theorem generate_srt_width_spec (translate : Option (String → String))
    (s0 : Segment) (rest : List Segment) :
    (detect_script (sampleText translate s0) = some .latinCyrillic →
      generate_srt translate (s0 :: rest) = .ok ((s0 :: rest).map (mkEntry translate 65))) ∧
    (detect_script (sampleText translate s0) = some .asian →
      generate_srt translate (s0 :: rest) = .ok ((s0 :: rest).map (mkEntry translate 22))) ∧
    (detect_script (sampleText translate s0) = some .arabic →
      generate_srt translate (s0 :: rest) = .ok ((s0 :: rest).map (mkEntry translate 30))) ∧
    (detect_script (sampleText translate s0) = none →
      generate_srt translate (s0 :: rest) =
        .error ("Could not define language font usage for " ++ sampleText translate s0)) := by
  simp only [generate_srt, chooseWidth]
  refine ⟨?_, ?_, ?_, ?_⟩ <;> intro hs <;> simp [hs]

/-- C4 witness: a latin-cyrillic sample gives width 65; an undetermined
sample raises. -/
theorem generate_srt_width_spec_witness :
    generate_srt none [⟨0, 0, 0, "Hello"⟩] =
      .ok (([⟨0, 0, 0, "Hello"⟩] : List Segment).map (mkEntry none 65)) ∧
    generate_srt none [⟨0, 0, 0, "!?."⟩] =
      .error ("Could not define language font usage for " ++ sampleText none ⟨0, 0, 0, "!?."⟩) :=
  ⟨(generate_srt_width_spec none _ []).1 (by decide),
   (generate_srt_width_spec none _ []).2.2.2 (by decide)⟩

/-- C8: every entry `generate_srt` writes carries index `id + 1`: subtitle
numbering is 1-based over the 0-based segment ids. -/
theorem entry_index_spec (translate : Option (String → String))
    (segments : List Segment) (entries : List SubtitleEntry)
    (h : generate_srt translate segments = .ok entries) :
    entries.map SubtitleEntry.index = segments.map (fun s => s.id + 1) := by
  cases segments with
  | nil => exact Except.noConfusion h
  | cons s0 rest =>
    simp only [generate_srt] at h
    cases hw : chooseWidth (sampleText translate s0) with
    | error e =>
      rw [hw] at h
      exact Except.noConfusion h
    | ok width =>
      rw [hw] at h
      simp only [Except.ok.injEq] at h
      subst h
      simp [List.map_map, mkEntry, Function.comp]

/-- C8 witness: one segment with id 0 yields one entry with index 1. -/
theorem entry_index_spec_witness :
    ([⟨1, "00:00:00,000", "00:00:00,000", "Hi"⟩] : List SubtitleEntry).map SubtitleEntry.index =
      ([⟨0, 0, 0, "Hi"⟩] : List Segment).map (fun s => s.id + 1) := by
  have hd : detect_script (sampleText none ⟨0, 0, 0, "Hi"⟩) = some .latinCyrillic := by decide
  have hcw : chooseWidth (sampleText none ⟨0, 0, 0, "Hi"⟩) = .ok 65 := by
    simp [chooseWidth, hd]
  have h : generate_srt none [⟨0, 0, 0, "Hi"⟩] =
      .ok [⟨1, "00:00:00,000", "00:00:00,000", "Hi"⟩] := by
    simp only [generate_srt, hcw, List.map_cons, List.map_nil, mkEntry, Except.ok.injEq,
      List.cons.injEq, and_true]
    rw [convert_time_zero]
    decide
  exact entry_index_spec none _ _ h

/-- C2 counterexample: the code does not round half away from zero — at
0.0005 seconds it rounds the half millisecond down, where
round-half-away-from-zero yields one millisecond. -/
theorem convert_time_roundmode_counterexample :
    convert_time_to_srt_format (1/2000) ≠ srtFormatSpecHalfAway (1/2000) ∧
    convert_time_to_srt_format (1/2000) = "00:00:00,000" ∧
    srtFormatSpecHalfAway (1/2000) = "00:00:00,001" := by
  refine ⟨?_, convert_time_half_ms, halfAway_half_ms⟩
  rw [convert_time_half_ms, halfAway_half_ms]
  decide

/-- C2 (amended): for nonnegative time the code rounds to whole
milliseconds with round-half-to-EVEN (Python's builtin `round`), then
floor-divides the total through seconds, minutes and hours; 0.0 gives
"00:00:00,000", 5.25 gives "00:00:05,250" and 3599.9995 gives
"01:00:00,000" (here the half millisecond still carries into the hours
field because 3599999 is odd). -/
theorem convert_time_spec (t : ℚ) (h : 0 ≤ t) :
    convert_time_to_srt_format t = srtFormatSpecHalfEven t ∧
    convert_time_to_srt_format 0 = "00:00:00,000" ∧
    convert_time_to_srt_format (21/4) = "00:00:05,250" ∧
    convert_time_to_srt_format (7199999/2000) = "01:00:00,000" := by
  refine ⟨?_, convert_time_zero, convert_time_quarter, convert_time_almost_hour⟩
  have hms : 0 ≤ pyRound (t * 1000) := pyRound_nonneg _ (by positivity)
  obtain ⟨k, hk⟩ := Int.eq_ofNat_of_zero_le hms
  simp only [convert_time_to_srt_format, srtFormatSpecHalfEven, hk]
  rw [ediv_chain_hours, ediv_chain_minutes]

/-- C2 witness: the amended statement instantiated at time 0. -/
theorem convert_time_spec_witness :
    convert_time_to_srt_format 0 = srtFormatSpecHalfEven 0 ∧
    convert_time_to_srt_format 0 = "00:00:00,000" ∧
    convert_time_to_srt_format (21/4) = "00:00:05,250" ∧
    convert_time_to_srt_format (7199999/2000) = "01:00:00,000" :=
  convert_time_spec 0 (le_refl 0)

/-! ### The script classifier: spec-side conditions and exclusivity -/

/-- Spec-side condition for the Arabic category: the whole stripped text
lies in `[\p{Arabic}\p{Common}\p{Inherited}]` and some character is
strictly Arabic. -/
def MatchesArabic (t : List Char) : Prop :=
  (∀ c ∈ t, inArabicClass c = true) ∧ ∃ c ∈ t, strictArabic c = true

/-- Spec-side condition for the asian (CJK/Kana/Hangul) category. -/
def MatchesAsian (t : List Char) : Prop :=
  (∀ c ∈ t, inAsianClass c = true) ∧ ∃ c ∈ t, strictAsian c = true

/-- Spec-side condition for the Latin/Cyrillic category. -/
def MatchesLatin (t : List Char) : Prop :=
  (∀ c ∈ t, inLatinClass c = true) ∧ ∃ c ∈ t, strictLatin c = true

instance (t : List Char) : Decidable (MatchesArabic t) :=
  inferInstanceAs (Decidable ((∀ c ∈ t, inArabicClass c = true) ∧ ∃ c ∈ t, strictArabic c = true))

instance (t : List Char) : Decidable (MatchesAsian t) :=
  inferInstanceAs (Decidable ((∀ c ∈ t, inAsianClass c = true) ∧ ∃ c ∈ t, strictAsian c = true))

instance (t : List Char) : Decidable (MatchesLatin t) :=
  inferInstanceAs (Decidable ((∀ c ∈ t, inLatinClass c = true) ∧ ∃ c ∈ t, strictLatin c = true))

/-- The Arabic branch condition as the code computes it. -/
def condArabic (s : String) : Bool :=
  let t := pyStrip s.data
  t.all inArabicClass && t.any strictArabic

/-- The asian branch condition as the code computes it. -/
def condAsian (s : String) : Bool :=
  let t := pyStrip s.data
  t.all inAsianClass && t.any strictAsian

/-- The Latin/Cyrillic branch condition as the code computes it. -/
def condLatin (s : String) : Bool :=
  let t := pyStrip s.data
  t.all inLatinClass && t.any strictLatin

/-- `detect_script` with the three category tests in the reverse order. -/
def detectScriptReordered (s : String) : Option ScriptCat :=
  let t := pyStrip s.data
  if t.isEmpty then none
  else if t.all inLatinClass && t.any strictLatin then some .latinCyrillic
  else if t.all inAsianClass && t.any strictAsian then some .asian
  else if t.all inArabicClass && t.any strictArabic then some .arabic
  else none

/-- The category a character strictly belongs to, if any. -/
def strictCat (c : Char) : Option ScriptCat :=
  if strictArabic c then some .arabic
  else if strictAsian c then some .asian
  else if strictLatin c then some .latinCyrillic
  else none

/-- `detect_script` phrased through the branch conditions. -/
theorem detect_script_eq_conds (s : String) :
    detect_script s =
      (if (pyStrip s.data).isEmpty then none
       else if condArabic s then some ScriptCat.arabic
       else if condAsian s then some .asian
       else if condLatin s then some .latinCyrillic
       else none) := rfl

/-- A strictly Arabic character is outside the asian class. -/
theorem strictArabic_notin_asian {c : Char} (h : strictArabic c = true) :
    inAsianClass c = false := by
  simp only [strictArabic, beq_iff_eq] at h
  simp [inAsianClass, h]

/-- A strictly Arabic character is outside the Latin/Cyrillic class. -/
theorem strictArabic_notin_latin {c : Char} (h : strictArabic c = true) :
    inLatinClass c = false := by
  simp only [strictArabic, beq_iff_eq] at h
  simp [inLatinClass, h]

/-- A strictly asian character is outside the Arabic class. -/
theorem strictAsian_notin_arabic {c : Char} (h : strictAsian c = true) :
    inArabicClass c = false := by
  simp only [strictAsian, Bool.or_eq_true, beq_iff_eq] at h
  rcases h with ((h | h) | h) | h <;> simp [inArabicClass, h]

/-- A strictly asian character is outside the Latin/Cyrillic class. -/
theorem strictAsian_notin_latin {c : Char} (h : strictAsian c = true) :
    inLatinClass c = false := by
  simp only [strictAsian, Bool.or_eq_true, beq_iff_eq] at h
  rcases h with ((h | h) | h) | h <;> simp [inLatinClass, h]

/-- A strictly Latin/Cyrillic character is outside the Arabic class. -/
theorem strictLatin_notin_arabic {c : Char} (h : strictLatin c = true) :
    inArabicClass c = false := by
  simp only [strictLatin, Bool.or_eq_true, beq_iff_eq] at h
  rcases h with h | h <;> simp [inArabicClass, h]

/-- A strictly Latin/Cyrillic character is outside the asian class. -/
theorem strictLatin_notin_asian {c : Char} (h : strictLatin c = true) :
    inAsianClass c = false := by
  simp only [strictLatin, Bool.or_eq_true, beq_iff_eq] at h
  rcases h with h | h <;> simp [inAsianClass, h]

/-- A member failing the predicate falsifies `all`. -/
theorem all_eq_false_of_mem {p : Char → Bool} {l : List Char} {x : Char}
    (hx : x ∈ l) (hpx : p x = false) : l.all p = false := by
  cases hall : l.all p
  · rfl
  · have := List.all_eq_true.mp hall x hx
    rw [hpx] at this
    exact Bool.noConfusion this

/-- The Arabic and asian conditions cannot both hold. -/
theorem condArabic_asian {s : String} (h : condArabic s = true) : condAsian s = false := by
  simp only [condArabic, Bool.and_eq_true] at h
  cases hx : condAsian s
  · rfl
  · simp only [condAsian, Bool.and_eq_true] at hx
    obtain ⟨c, hc, hsc⟩ := List.any_eq_true.mp hx.2
    have := List.all_eq_true.mp h.1 c hc
    rw [strictAsian_notin_arabic hsc] at this
    exact Bool.noConfusion this

/-- The Arabic and Latin/Cyrillic conditions cannot both hold. -/
theorem condArabic_latin {s : String} (h : condArabic s = true) : condLatin s = false := by
  simp only [condArabic, Bool.and_eq_true] at h
  cases hx : condLatin s
  · rfl
  · simp only [condLatin, Bool.and_eq_true] at hx
    obtain ⟨c, hc, hsc⟩ := List.any_eq_true.mp hx.2
    have := List.all_eq_true.mp h.1 c hc
    rw [strictLatin_notin_arabic hsc] at this
    exact Bool.noConfusion this

/-- The asian and Latin/Cyrillic conditions cannot both hold. -/
theorem condAsian_latin {s : String} (h : condAsian s = true) : condLatin s = false := by
  simp only [condAsian, Bool.and_eq_true] at h
  cases hx : condLatin s
  · rfl
  · simp only [condLatin, Bool.and_eq_true] at hx
    obtain ⟨c, hc, hsc⟩ := List.any_eq_true.mp hx.2
    have := List.all_eq_true.mp h.1 c hc
    rw [strictLatin_notin_asian hsc] at this
    exact Bool.noConfusion this

/-- C10: at most one of the three full-match-plus-strict-character
conditions of `detect_script` holds on any input, so the categories are
mutually exclusive and the classification does not depend on the order in
which they are tested. -/
theorem detect_script_order_independent (s : String) :
    (condArabic s).toNat + (condAsian s).toNat + (condLatin s).toNat ≤ 1 ∧
    detect_script s = detectScriptReordered s := by
  constructor
  · cases hA : condArabic s
    · cases hB : condAsian s
      · cases hC : condLatin s <;> simp
      · rw [condAsian_latin hB]
        simp
    · rw [condArabic_asian hA, condArabic_latin hA]
      simp
  · rw [detect_script_eq_conds]
    have hre : detectScriptReordered s =
        (if (pyStrip s.data).isEmpty then none
         else if condLatin s then some ScriptCat.latinCyrillic
         else if condAsian s then some .asian
         else if condArabic s then some .arabic
         else none) := rfl
    rw [hre]
    cases hE : (pyStrip s.data).isEmpty
    · simp only [Bool.false_eq_true, if_false]
      cases hA : condArabic s
      · cases hB : condAsian s
        · cases hC : condLatin s <;> simp [hA, hB, hC]
        · rw [condAsian_latin hB]
          simp [hA, hB]
      · rw [condArabic_asian hA, condArabic_latin hA]
        simp [hA]
    · simp

/-- The branch conditions agree with their spec-side readings. -/
theorem condArabic_iff (s : String) :
    condArabic s = true ↔ MatchesArabic (pyStrip s.data) := by
  simp [condArabic, MatchesArabic, List.all_eq_true, List.any_eq_true]

/-- The asian branch condition agrees with its spec-side reading. -/
theorem condAsian_iff (s : String) :
    condAsian s = true ↔ MatchesAsian (pyStrip s.data) := by
  simp [condAsian, MatchesAsian, List.all_eq_true, List.any_eq_true]

/-- The Latin/Cyrillic branch condition agrees with its spec-side reading. -/
theorem condLatin_iff (s : String) :
    condLatin s = true ↔ MatchesLatin (pyStrip s.data) := by
  simp [condLatin, MatchesLatin, List.all_eq_true, List.any_eq_true]

/-- A matching category forces the stripped text to be nonempty. -/
theorem isEmpty_false_of_mem {t : List Char} {c : Char} (hc : c ∈ t) :
    t.isEmpty = false := by
  cases t
  · cases hc
  · rfl

/-- C1: `detect_script` is the priority chain Arabic, asian,
Latin/Cyrillic: a category matches exactly when the entire stripped string
lies in the category's class (its scripts plus Common/Inherited) and some
character is strictly of the category's scripts; the first match is
returned, and with no match (empty, punctuation-only, mixed-script or
unrecognized text) the result is `none`. -/
theorem detect_script_priority (s : String) :
    detect_script s =
      (if MatchesArabic (pyStrip s.data) then some ScriptCat.arabic
       else if MatchesAsian (pyStrip s.data) then some .asian
       else if MatchesLatin (pyStrip s.data) then some .latinCyrillic
       else none) := by
  rw [detect_script_eq_conds]
  by_cases hA : MatchesArabic (pyStrip s.data)
  · have hcA : condArabic s = true := (condArabic_iff s).mpr hA
    have hne : (pyStrip s.data).isEmpty = false := by
      obtain ⟨-, c, hc, -⟩ := hA
      exact isEmpty_false_of_mem hc
    rw [if_pos hA]
    simp [hne, hcA]
  · have hcA : condArabic s = false := by
      cases hx : condArabic s
      · rfl
      · exact absurd ((condArabic_iff s).mp hx) hA
    rw [if_neg hA]
    by_cases hAs : MatchesAsian (pyStrip s.data)
    · have hcAs : condAsian s = true := (condAsian_iff s).mpr hAs
      have hne : (pyStrip s.data).isEmpty = false := by
        obtain ⟨-, c, hc, -⟩ := hAs
        exact isEmpty_false_of_mem hc
      rw [if_pos hAs]
      simp [hne, hcA, hcAs]
    · have hcAs : condAsian s = false := by
        cases hx : condAsian s
        · rfl
        · exact absurd ((condAsian_iff s).mp hx) hAs
      rw [if_neg hAs]
      by_cases hL : MatchesLatin (pyStrip s.data)
      · have hcL : condLatin s = true := (condLatin_iff s).mpr hL
        have hne : (pyStrip s.data).isEmpty = false := by
          obtain ⟨-, c, hc, -⟩ := hL
          exact isEmpty_false_of_mem hc
        rw [if_pos hL]
        simp [hne, hcA, hcAs, hcL]
      · have hcL : condLatin s = false := by
          cases hx : condLatin s
          · rfl
          · exact absurd ((condLatin_iff s).mp hx) hL
        rw [if_neg hL]
        cases hE : (pyStrip s.data).isEmpty <;> simp [hcA, hcAs, hcL]

/-- A strictly Arabic character's category. -/
theorem strictCat_of_strictArabic {c : Char} (h : strictArabic c = true) :
    strictCat c = some .arabic := by
  simp [strictCat, h]

/-- A strictly asian character's category. -/
theorem strictCat_of_strictAsian {c : Char} (h : strictAsian c = true) :
    strictCat c = some .asian := by
  have h' := h
  simp only [strictAsian, Bool.or_eq_true, beq_iff_eq] at h'
  rcases h' with ((h' | h') | h') | h' <;>
    simp [strictCat, strictArabic, strictAsian, h']

/-- A strictly Latin/Cyrillic character's category. -/
theorem strictCat_of_strictLatin {c : Char} (h : strictLatin c = true) :
    strictCat c = some .latinCyrillic := by
  have h' := h
  simp only [strictLatin, Bool.or_eq_true, beq_iff_eq] at h'
  rcases h' with h' | h' <;>
    simp [strictCat, strictArabic, strictAsian, strictLatin, h']

/-- A character of a strict category fails the full-match classes of the
other two categories. -/
theorem strictCat_class_false {c : Char} {cat : ScriptCat} (h : strictCat c = some cat) :
    (cat ≠ .arabic → inArabicClass c = false) ∧
    (cat ≠ .asian → inAsianClass c = false) ∧
    (cat ≠ .latinCyrillic → inLatinClass c = false) := by
  simp only [strictCat] at h
  split_ifs at h with h1 h2 h3
  · cases h
    exact ⟨fun hne => absurd rfl hne,
      fun _ => strictArabic_notin_asian h1, fun _ => strictArabic_notin_latin h1⟩
  · cases h
    exact ⟨fun _ => strictAsian_notin_arabic h2,
      fun hne => absurd rfl hne, fun _ => strictAsian_notin_latin h2⟩
  · cases h
    exact ⟨fun _ => strictLatin_notin_arabic h3,
      fun _ => strictLatin_notin_asian h3, fun hne => absurd rfl hne⟩

/-- C5: `detect_script` is undetermined on input that strips to nothing,
on input with no character strictly of any covered category
(punctuation-only text), and on input mixing characters strictly of two
different covered categories. -/
theorem detect_script_none_spec (s : String) :
    (pyStrip s.data = [] → detect_script s = none) ∧
    ((∀ c ∈ pyStrip s.data, strictCat c = none) → detect_script s = none) ∧
    (∀ a b ca cb, a ∈ pyStrip s.data → b ∈ pyStrip s.data →
      strictCat a = some ca → strictCat b = some cb → ca ≠ cb →
      detect_script s = none) := by
  refine ⟨?_, ?_, ?_⟩
  · intro h
    simp [detect_script, detectScriptL, h]
  · intro hnone
    have hA : (pyStrip s.data).any strictArabic = false := by
      cases hx : (pyStrip s.data).any strictArabic
      · rfl
      · obtain ⟨c, hc, hsc⟩ := List.any_eq_true.mp hx
        have := hnone c hc
        rw [strictCat_of_strictArabic hsc] at this
        exact Option.noConfusion this
    have hAs : (pyStrip s.data).any strictAsian = false := by
      cases hx : (pyStrip s.data).any strictAsian
      · rfl
      · obtain ⟨c, hc, hsc⟩ := List.any_eq_true.mp hx
        have := hnone c hc
        rw [strictCat_of_strictAsian hsc] at this
        exact Option.noConfusion this
    have hL : (pyStrip s.data).any strictLatin = false := by
      cases hx : (pyStrip s.data).any strictLatin
      · rfl
      · obtain ⟨c, hc, hsc⟩ := List.any_eq_true.mp hx
        have := hnone c hc
        rw [strictCat_of_strictLatin hsc] at this
        exact Option.noConfusion this
    cases hE : (pyStrip s.data).isEmpty <;>
      simp [detect_script, detectScriptL, hE, hA, hAs, hL]
  · intro a b ca cb ha hb hca hcb hne
    have hfa := strictCat_class_false hca
    have hfb := strictCat_class_false hcb
    have hallA : (pyStrip s.data).all inArabicClass = false := by
      by_cases h : ca = .arabic
      · subst h
        exact all_eq_false_of_mem hb (hfb.1 (fun hh => hne hh.symm))
      · exact all_eq_false_of_mem ha (hfa.1 h)
    have hallAs : (pyStrip s.data).all inAsianClass = false := by
      by_cases h : ca = .asian
      · subst h
        exact all_eq_false_of_mem hb (hfb.2.1 (fun hh => hne hh.symm))
      · exact all_eq_false_of_mem ha (hfa.2.1 h)
    have hallL : (pyStrip s.data).all inLatinClass = false := by
      by_cases h : ca = .latinCyrillic
      · subst h
        exact all_eq_false_of_mem hb (hfb.2.2 (fun hh => hne hh.symm))
      · exact all_eq_false_of_mem ha (hfa.2.2 h)
    cases hE : (pyStrip s.data).isEmpty <;>
      simp [detect_script, detectScriptL, hE, hallA, hallAs, hallL]

/-- C5 witness: a whitespace-only string, a punctuation-only string, and a
Latin/Arabic mixture. -/
theorem detect_script_none_spec_witness :
    detect_script "   " = none ∧ detect_script "!?." = none ∧
    detect_script "aا" = none :=
  ⟨(detect_script_none_spec "   ").1 (by decide),
   (detect_script_none_spec "!?.").2.1 (by decide),
   (detect_script_none_spec "aا").2.2 'a' 'ا' .latinCyrillic .arabic
     (by decide) (by decide) (by decide) (by decide) (by decide)⟩

/-! ### `get_unique_filename` -/

/-- The n-th collision-avoiding candidate for a requested path, assembled
with the code's own path helpers. -/
def nthCandidate (path : String) (n : Nat) : String :=
  let sp := osPathSplit path
  let se := osPathSplitext sp.2
  osPathJoin sp.1 (candidateName se.1 se.2 n)

/-- Folding the decimal evaluator over freshly rendered digits. -/
theorem natVal_aux (fuel : Nat) : ∀ n a, n < fuel →
    (natReprAux fuel n).foldl (fun x c => x * 10 + (c.toNat - 48)) a =
      a * 10 ^ (natReprAux fuel n).length + n := by
  have hd : ∀ m, m < 10 → (digitChar m).toNat - 48 = m := by decide
  induction fuel with
  | zero => intro n a h; omega
  | succ fuel ih =>
    intro n a h
    by_cases h10 : n < 10
    · simp only [natReprAux, if_pos h10, List.foldl_cons, List.foldl_nil, List.length_cons,
        List.length_nil]
      rw [hd n h10]
      ring
    · simp only [natReprAux, if_neg h10]
      rw [List.foldl_append, List.length_append]
      have hdiv : n / 10 < fuel := by omega
      rw [ih (n / 10) a hdiv]
      simp only [List.foldl_cons, List.foldl_nil, List.length_cons, List.length_nil]
      rw [hd (n % 10) (Nat.mod_lt _ (by norm_num))]
      calc (a * 10 ^ (natReprAux fuel (n / 10)).length + n / 10) * 10 + n % 10
          = a * (10 ^ (natReprAux fuel (n / 10)).length * 10) + (10 * (n / 10) + n % 10) := by
            ring
        _ = a * 10 ^ ((natReprAux fuel (n / 10)).length + (0 + 1)) + n := by
            rw [Nat.div_add_mod]
            ring

/-- `natVal` inverts `natRepr`. -/
theorem natVal_natRepr (n : Nat) : natVal (natRepr n) = n := by
  have h := natVal_aux (n + 1) n 0 (Nat.lt_succ_self n)
  simpa [natVal, natRepr] using h

/-- Decimal rendering is injective. -/
theorem natRepr_injective : Function.Injective natRepr := by
  intro m n h
  have hm := natVal_natRepr m
  rw [h, natVal_natRepr] at hm
  exact hm.symm

/-- Distinct counters give distinct candidate names (data level). -/
theorem candidateName_data_inj (name ext : String) {m n : Nat}
    (h : (candidateName name ext m).data = (candidateName name ext n).data) : m = n := by
  simp only [candidateName, String.data_append, List.append_assoc] at h
  have h1 := List.append_cancel_left h
  have h2 := List.append_cancel_left h1
  rw [← List.append_assoc, ← List.append_assoc] at h2
  have h3 := List.append_cancel_right h2
  have h4 := List.append_cancel_right h3
  exact natRepr_injective h4

/-- Both candidates expose the same head character. -/
theorem candidateName_head (name ext : String) (m n : Nat) :
    (candidateName name ext m).data.head? = (candidateName name ext n).data.head? := by
  simp only [candidateName, String.data_append, List.append_assoc]
  cases name.data
  · rfl
  · rfl

/-- Joining the directory with distinct candidate names stays injective. -/
theorem osPathJoin_candidate_inj (d name ext : String) {m n : Nat}
    (h : osPathJoin d (candidateName name ext m) = osPathJoin d (candidateName name ext n)) :
    m = n := by
  have hh := candidateName_head name ext m n
  simp only [osPathJoin] at h
  rw [hh] at h
  by_cases h1 : ((candidateName name ext n).data.head? == some '/') = true
  · rw [if_pos h1, if_pos h1] at h
    exact candidateName_data_inj name ext (congrArg String.data h)
  · rw [if_neg h1, if_neg h1] at h
    by_cases h2 : (d.data.isEmpty || (d.data.getLast? == some '/')) = true
    · rw [if_pos h2, if_pos h2] at h
      have hd := congrArg String.data h
      rw [String.data_append, String.data_append] at hd
      exact candidateName_data_inj name ext (List.append_cancel_left hd)
    · rw [if_neg h2, if_neg h2] at h
      have hd := congrArg String.data h
      simp only [String.data_append, List.append_assoc] at hd
      exact candidateName_data_inj name ext
        (List.append_cancel_left (List.append_cancel_left hd))

/-- The fuelled search returns the first free candidate when the fuel
outlasts its index. -/
theorem uniqueLoop_finds (fs : List String) (d name ext : String) (n : Nat)
    (hfree : osPathJoin d (candidateName name ext n) ∉ fs)
    (htaken : ∀ m, m < n → 1 ≤ m → osPathJoin d (candidateName name ext m) ∈ fs) :
    ∀ fuel start, 1 ≤ start → start ≤ n → n < start + fuel →
      uniqueLoop fs d name ext fuel start = osPathJoin d (candidateName name ext n) := by
  intro fuel
  induction fuel with
  | zero => intro start h1 h2 h3; omega
  | succ fuel ih =>
    intro start h1 h2 h3
    simp only [uniqueLoop]
    by_cases hs : start = n
    · subst hs
      have hc : fs.contains (osPathJoin d (candidateName name ext start)) = false := by
        cases hx : fs.contains (osPathJoin d (candidateName name ext start))
        · rfl
        · exact absurd (List.elem_iff.mp hx) hfree
      rw [hc]
      simp
    · have hlt : start < n := lt_of_le_of_ne h2 hs
      have hc : fs.contains (osPathJoin d (candidateName name ext start)) = true :=
        List.elem_iff.mpr (htaken start hlt h1)
      rw [hc, if_pos rfl]
      exact ih (start + 1) (by omega) (by omega) (by omega)

/-- C7: `get_unique_filename` returns the requested path unchanged when no
file exists at it; otherwise it returns the first candidate of the form
`name (n).ext`, with n counted from 1, that does not exist. -/
theorem get_unique_filename_spec (fs : List String) (path : String) :
    (path ∉ fs → get_unique_filename fs path = path) ∧
    (∀ n, path ∈ fs → 1 ≤ n →
      nthCandidate path n ∉ fs →
      (∀ m, m < n → 1 ≤ m → nthCandidate path m ∈ fs) →
      get_unique_filename fs path = nthCandidate path n) := by
  constructor
  · intro h
    have hc : fs.contains path = false := by
      cases hx : fs.contains path
      · rfl
      · exact absurd (List.elem_iff.mp hx) h
    simp only [get_unique_filename]
    rw [hc]
    simp
  · intro n hmem h1 hfree htaken
    have hc : fs.contains path = true := List.elem_iff.mpr hmem
    have hbound : n ≤ fs.length + 1 := by
      by_contra hcon
      push_neg at hcon
      set d := (osPathSplit path).1 with hd
      set nm := (osPathSplitext (osPathSplit path).2).1 with hnm
      set ex := (osPathSplitext (osPathSplit path).2).2 with hex
      have hinj : Function.Injective (fun i : Nat => nthCandidate path (i + 1)) := by
        intro i j hij
        simp only [nthCandidate] at hij
        have := osPathJoin_candidate_inj _ _ _ hij
        omega
      have hnodup : ((List.range (n - 1)).map (fun i => nthCandidate path (i + 1))).Nodup :=
        (List.nodup_range (n - 1)).map hinj
      have hsub : ((List.range (n - 1)).map (fun i => nthCandidate path (i + 1))) ⊆ fs := by
        intro x hx
        obtain ⟨i, hi, hix⟩ := List.mem_map.mp hx
        have hi' := List.mem_range.mp hi
        rw [← hix]
        exact htaken (i + 1) (by omega) (by omega)
      have hlen := (List.subperm_of_subset hnodup hsub).length_le
      rw [List.length_map, List.length_range] at hlen
      omega
    simp only [get_unique_filename]
    rw [hc]
    simp only [Bool.not_true, Bool.false_eq_true, if_false]
    exact uniqueLoop_finds fs _ _ _ n hfree
      (fun m hm h1m => htaken m hm h1m) (fs.length + 1) 1 le_rfl h1 (by omega)

/-- C7 witness: no collision returns the path; with `out.mp4` and
`out (1).mp4` both taken, the result is `out (2).mp4`. -/
theorem get_unique_filename_spec_witness :
    get_unique_filename [] "out.mp4" = "out.mp4" ∧
    get_unique_filename ["out.mp4", "out (1).mp4"] "out.mp4" = nthCandidate "out.mp4" 2 ∧
    nthCandidate "out.mp4" 2 = "out (2).mp4" :=
  ⟨(get_unique_filename_spec [] "out.mp4").1 (by decide),
   (get_unique_filename_spec ["out.mp4", "out (1).mp4"] "out.mp4").2 2
     (by decide) (by decide) (by decide) (by decide),
   by decide⟩

/-! ### Word-sequence lemmas for the wrapping proof -/

/-- One whitespace character flushes the accumulated word. -/
theorem wordsAux_ws_cons {c : Char} (hc : twIsSpace c = true) (l acc : List Char) :
    wordsAux (c :: l) acc =
      (if acc.isEmpty then [] else [acc.reverse]) ++ wordsAux l [] := by
  simp only [wordsAux, hc, if_true]
  cases acc <;> simp

/-- A word list splits at any whitespace character. -/
theorem wordsAux_append_ws {c : Char} (hc : twIsSpace c = true) (b : List Char) :
    ∀ (a acc : List Char),
      wordsAux (a ++ c :: b) acc = wordsAux a acc ++ wordsAux b [] := by
  intro a
  induction a with
  | nil =>
    intro acc
    rw [List.nil_append, wordsAux_ws_cons hc]
    cases acc <;> simp [wordsAux]
  | cons d a' ih =>
    intro acc
    cases hd : twIsSpace d
    · simp only [List.cons_append, wordsAux, hd, Bool.false_eq_true, if_false]
      exact ih (d :: acc)
    · rw [List.cons_append, wordsAux_ws_cons hd, wordsAux_ws_cons hd, ih []]
      simp

/-- Words of an all-whitespace text: none. -/
theorem wordsOf_all_ws {S : List Char} (h : ∀ c ∈ S, twIsSpace c = true) :
    wordsOf S = [] := by
  induction S with
  | nil => rfl
  | cons c S' ih =>
    rw [wordsOf, wordsAux_ws_cons (h c (List.mem_cons_self c S')) S' []]
    simp only [List.isEmpty_nil, if_true, List.nil_append]
    exact ih (fun d hd => h d (List.mem_cons_of_mem c hd))

/-- A leading whitespace run contributes no words. -/
theorem wordsOf_ws_append {S : List Char} (h : ∀ c ∈ S, twIsSpace c = true)
    (Y : List Char) : wordsOf (S ++ Y) = wordsOf Y := by
  induction S with
  | nil => rfl
  | cons c S' ih =>
    rw [List.cons_append, wordsOf, wordsAux_ws_cons (h c (List.mem_cons_self c S'))]
    simp only [List.isEmpty_nil, if_true, List.nil_append]
    exact ih (fun d hd => h d (List.mem_cons_of_mem c hd))

/-- A trailing whitespace run contributes no words. -/
theorem wordsOf_append_ws (X : List Char) {S : List Char}
    (h : ∀ c ∈ S, twIsSpace c = true) : wordsOf (X ++ S) = wordsOf X := by
  cases S with
  | nil => rw [List.append_nil]
  | cons c S' =>
    rw [wordsOf, wordsAux_append_ws (h c (List.mem_cons_self c S')) S' X []]
    have : wordsAux S' [] = [] :=
      wordsOf_all_ws (fun d hd => h d (List.mem_cons_of_mem c hd))
    rw [this, List.append_nil]
    rfl

/-- Word sequences concatenate across a junction that touches whitespace
on either side. -/
theorem wordsOf_append_boundary (X Y : List Char)
    (h : (∃ c, X.getLast? = some c ∧ twIsSpace c = true) ∨
         (∃ c, Y.head? = some c ∧ twIsSpace c = true)) :
    wordsOf (X ++ Y) = wordsOf X ++ wordsOf Y := by
  rcases h with ⟨c, hc, hw⟩ | ⟨c, hc, hw⟩
  · obtain ⟨X', rfl⟩ := List.getLast?_eq_some_iff.mp hc
    rw [List.append_assoc, List.singleton_append, wordsOf, wordsAux_append_ws hw Y X' []]
    rw [show wordsOf (X' ++ [c]) = wordsOf X' from wordsOf_append_ws X'
      (fun d hd => by rw [List.mem_singleton.mp hd]; exact hw)]
    rfl
  · cases Y with
    | nil => cases hc
    | cons y Y' =>
      have hy : y = c := by
        simp only [List.head?_cons, Option.some.injEq] at hc
        exact hc
      subst hy
      rw [wordsOf, wordsAux_append_ws hw Y' X []]
      rw [show wordsOf (y :: Y') = wordsAux Y' [] by
        rw [wordsOf, wordsAux_ws_cons hw]; simp]
      rfl

/-- The words of the joined lines are the lines' words in order. -/
theorem wordsOf_intercalate (lines : List (List Char)) :
    wordsOf (List.intercalate ['\n'] lines) = (lines.map wordsOf).flatten := by
  induction lines with
  | nil => rfl
  | cons l ls ih =>
    cases ls with
    | nil => simp [List.intercalate]
    | cons l₂ ls' =>
      have hstep : List.intercalate ['\n'] (l :: l₂ :: ls') =
          l ++ '\n' :: List.intercalate ['\n'] (l₂ :: ls') := by
        simp [List.intercalate, List.intersperse]
      rw [hstep]
      rw [show (l ++ '\n' :: List.intercalate ['\n'] (l₂ :: ls')) =
        (l ++ ('\n' :: List.intercalate ['\n'] (l₂ :: ls'))) from rfl]
      rw [wordsOf_append_boundary l ('\n' :: List.intercalate ['\n'] (l₂ :: ls'))
        (Or.inr ⟨'\n', rfl, by decide⟩)]
      rw [show wordsOf ('\n' :: List.intercalate ['\n'] (l₂ :: ls')) =
          wordsOf (List.intercalate ['\n'] (l₂ :: ls')) from by
        rw [wordsOf, wordsAux_ws_cons (by decide)]; simp; rfl]
      rw [ih]
      simp

/-! ### Munging preserves the word sequence -/

/-- A nonempty space run flushes the accumulator like one space. -/
theorem wordsAux_replicate_space (k : Nat) (hk : 1 ≤ k) :
    ∀ (X acc : List Char),
      wordsAux (List.replicate k ' ' ++ X) acc =
        (if acc.isEmpty then [] else [acc.reverse]) ++ wordsAux X [] := by
  induction k with
  | zero => omega
  | succ k ih =>
    intro X acc
    rw [List.replicate_succ, List.cons_append, wordsAux_ws_cons (by decide)]
    cases k with
    | zero => simp
    | succ k' =>
      rw [ih (by omega) X []]
      simp

/-- Tab expansion does not change the word sequence. -/
theorem wordsAux_expandTabsAux (l : List Char) :
    ∀ (col : Nat) (acc : List Char),
      wordsAux (expandTabsAux l col) acc = wordsAux l acc := by
  induction l with
  | nil => intro col acc; rfl
  | cons c l' ih =>
    intro col acc
    by_cases ht : c = '\t'
    · subst ht
      simp only [expandTabsAux, if_true]
      have hk : 1 ≤ 8 - col % 8 := by omega
      rw [wordsAux_replicate_space (8 - col % 8) hk _ acc, ih]
      rw [wordsAux_ws_cons (by decide)]
    · by_cases hnl : c = '\n' ∨ c = '\r'
      · simp only [expandTabsAux, if_neg ht, if_pos hnl]
        have hws : twIsSpace c = true := by
          rcases hnl with h | h <;> subst h <;> decide
        rw [wordsAux_ws_cons hws, wordsAux_ws_cons hws, ih]
      · simp only [expandTabsAux, if_neg ht, if_neg hnl]
        cases hw : twIsSpace c
        · simp only [wordsAux, hw, Bool.false_eq_true, if_false]
          exact ih _ (c :: acc)
        · rw [wordsAux_ws_cons hw, wordsAux_ws_cons hw, ih]

/-- Replacing whitespace by spaces does not change the word sequence. -/
theorem wordsAux_map_space (l : List Char) :
    ∀ acc, wordsAux (l.map (fun c => if twIsSpace c then ' ' else c)) acc =
      wordsAux l acc := by
  induction l with
  | nil => intro acc; rfl
  | cons c l' ih =>
    intro acc
    cases hw : twIsSpace c
    · simp only [List.map_cons, hw, Bool.false_eq_true, if_false]
      simp only [wordsAux, hw, Bool.false_eq_true, if_false]
      exact ih (c :: acc)
    · simp only [List.map_cons, hw, if_true]
      rw [wordsAux_ws_cons (by decide), wordsAux_ws_cons hw, ih]

/-- Munging preserves the words. -/
theorem wordsOf_munge (l : List Char) : wordsOf (munge l) = wordsOf l := by
  rw [munge, expandTabs, wordsOf, wordsAux_map_space, wordsAux_expandTabsAux]
  rfl

/-- Every character of a munged text is a space iff it is `textwrap`
whitespace. -/
theorem munge_chars {l : List Char} {c : Char} (hc : c ∈ munge l) :
    twIsSpace c = (c == ' ') := by
  obtain ⟨d, -, rfl⟩ := List.mem_map.mp hc
  by_cases hw : twIsSpace d
  · simp only [hw, if_true]
    decide
  · simp only [hw, Bool.false_eq_true, if_false]
    cases hsp : (d == ' ')
    · simp only [hw, hsp]
    · have : d = ' ' := by simpa using hsp
      subst this
      exact absurd (by decide) hw

/-- Tab expansion only adds spaces. -/
theorem expandTabsAux_chars (l : List Char) :
    ∀ col, ∀ d ∈ expandTabsAux l col, d = ' ' ∨ d ∈ l := by
  induction l with
  | nil => intro col d hd; cases hd
  | cons c l' ih =>
    intro col d hd
    by_cases ht : c = '\t'
    · subst ht
      simp only [expandTabsAux, if_pos rfl] at hd
      rcases List.mem_append.mp hd with hd | hd
      · exact Or.inl (List.eq_of_mem_replicate hd)
      · rcases ih _ d hd with h | h
        · exact Or.inl h
        · exact Or.inr (List.mem_cons_of_mem _ h)
    · by_cases hnl : c = '\n' ∨ c = '\r'
      · simp only [expandTabsAux, if_neg ht, if_pos hnl] at hd
        rcases List.mem_cons.mp hd with hd | hd
        · exact Or.inr (hd ▸ List.mem_cons_self c l')
        · rcases ih _ d hd with h | h
          · exact Or.inl h
          · exact Or.inr (List.mem_cons_of_mem _ h)
      · simp only [expandTabsAux, if_neg ht, if_neg hnl] at hd
        rcases List.mem_cons.mp hd with hd | hd
        · exact Or.inr (hd ▸ List.mem_cons_self c l')
        · rcases ih _ d hd with h | h
          · exact Or.inl h
          · exact Or.inr (List.mem_cons_of_mem _ h)

/-- On text whose Python whitespace is ASCII, every Python-whitespace
character of the munged text is a plain space. -/
theorem munge_pyws {l : List Char}
    (hws : ∀ c ∈ l, pyIsSpace c = true → twIsSpace c = true)
    {c : Char} (hc : c ∈ munge l) : pyIsSpace c = true → c = ' ' := by
  intro hpc
  obtain ⟨d, hd, rfl⟩ := List.mem_map.mp hc
  by_cases hw : twIsSpace d
  · simp [hw]
  · simp only [hw, Bool.false_eq_true, if_false] at hpc ⊢
    rcases expandTabsAux_chars l 0 d hd with h | h
    · exact h
    · exact absurd (hws d h hpc) (by simpa using hw)

/-! ### Whitespace chunks -/

/-- A string strips to nothing exactly when it is all Python whitespace. -/
theorem pyStrip_eq_nil_iff (l : List Char) :
    pyStrip l = [] ↔ ∀ c ∈ l, pyIsSpace c = true := by
  constructor
  · intro h c hc
    rw [pyStrip, List.reverse_eq_nil_iff] at h
    rw [List.dropWhile_eq_nil_iff] at h
    by_cases hcd : c ∈ l.dropWhile pyIsSpace
    · exact h c (by simpa using hcd)
    · have hsplit : l = l.takeWhile pyIsSpace ++ l.dropWhile pyIsSpace :=
        (List.takeWhile_append_dropWhile pyIsSpace l).symm
      rcases List.mem_append.mp (hsplit ▸ hc) with hct | hcd'
      · exact List.mem_takeWhile_imp hct
      · exact absurd hcd' hcd
  · intro h
    have h1 : l.dropWhile pyIsSpace = [] := List.dropWhile_eq_nil_iff.mpr h
    rw [pyStrip, h1]
    rfl

/-- For chunks without exotic Python whitespace, being a whitespace chunk
means being all spaces. -/
theorem isWSChunk_iff {ch : List Char} (hok : ∀ c ∈ ch, pyIsSpace c = true → c = ' ') :
    isWSChunk ch = true ↔ ∀ c ∈ ch, c = ' ' := by
  rw [isWSChunk, List.isEmpty_iff, pyStrip_eq_nil_iff]
  constructor
  · intro h c hc
    exact hok c hc (h c hc)
  · intro h c hc
    rw [h c hc]
    decide

/-! ### Chunk structure of a munged text -/

/-- The kind of a homogeneous chunk, read off its head. -/
def chunkIsSpace (ch : List Char) : Bool := ch.head? == some ' '

/-- The chunks flatten back to the text. -/
theorem chunksAux_flatten (l : List Char) :
    ∀ acc, (chunksAux l acc).flatten = acc.reverse ++ l := by
  induction l with
  | nil =>
    intro acc
    cases acc <;> simp [chunksAux]
  | cons c l' ih =>
    intro acc
    cases acc with
    | nil => simp [chunksAux, ih]
    | cons a t =>
      by_cases hk : ((c == ' ') == (a == ' ')) = true
      · rw [chunksAux, if_pos hk, ih]
        simp
      · rw [chunksAux, if_neg hk]
        rw [List.flatten_cons, ih]
        simp

/-- Each chunk is nonempty and homogeneous, adjacent chunks have
different kinds, and the first chunk keeps the accumulator's kind. -/
theorem chunksAux_wf (l : List Char) :
    ∀ (acc : List Char) (k : Bool), acc ≠ [] → (∀ c ∈ acc, (c == ' ') = k) →
      (∀ ch ∈ chunksAux l acc, ch ≠ [] ∧ ∀ c ∈ ch, (c == ' ') = chunkIsSpace ch) ∧
      List.Chain' (fun a b => chunkIsSpace a ≠ chunkIsSpace b) (chunksAux l acc) ∧
      (∀ ch₀, (chunksAux l acc).head? = some ch₀ → chunkIsSpace ch₀ = k) := by
  induction l with
  | nil =>
    intro acc k hne hk
    obtain ⟨a, t, rfl⟩ := List.exists_cons_of_ne_nil hne
    simp only [chunksAux, List.isEmpty_cons, Bool.false_eq_true, if_false]
    have hhd : ((a :: t).reverse).head? = some ((a :: t).getLast (by simp)) := by
      rw [List.head?_reverse, List.getLast?_eq_getLast _ (by simp)]
    have hkind : chunkIsSpace ((a :: t).reverse) = k := by
      rw [chunkIsSpace, hhd]
      have := hk ((a :: t).getLast (by simp)) (List.getLast_mem _)
      simpa using this
    refine ⟨?_, ?_, ?_⟩
    · intro ch hch
      rw [List.mem_singleton.mp hch]
      refine ⟨by simp, ?_⟩
      intro c hc
      rw [hkind]
      exact hk c (List.mem_reverse.mp hc)
    · exact List.chain'_singleton _
    · intro ch₀ h₀
      simp only [List.head?_cons, Option.some.injEq] at h₀
      rw [← h₀]
      exact hkind
  | cons c l' ih =>
    intro acc k hne hk
    obtain ⟨a, t, rfl⟩ := List.exists_cons_of_ne_nil hne
    have ha : (a == ' ') = k := hk a (List.mem_cons_self a t)
    by_cases hck : ((c == ' ') == (a == ' ')) = true
    · rw [chunksAux, if_pos hck]
      have hceq : (c == ' ') = k := by
        rw [← ha]
        simpa using hck
      exact ih (c :: a :: t) k (by simp)
        (fun d hd => by
          rcases List.mem_cons.mp hd with h | h
          · rw [h, hceq]
          · exact hk d h)
    · rw [chunksAux, if_neg hck]
      have hck' : (c == ' ') ≠ k := by
        rw [← ha]
        simpa using hck
      obtain ⟨hwf', hchain', hhead'⟩ := ih [c] (c == ' ') (by simp) (by simp)
      have hhd : ((a :: t).reverse).head? = some ((a :: t).getLast (by simp)) := by
        rw [List.head?_reverse, List.getLast?_eq_getLast _ (by simp)]
      have hkind : chunkIsSpace ((a :: t).reverse) = k := by
        rw [chunkIsSpace, hhd]
        have := hk ((a :: t).getLast (by simp)) (List.getLast_mem _)
        simpa using this
      refine ⟨?_, ?_, ?_⟩
      · intro ch hch
        rcases List.mem_cons.mp hch with h | h
        · subst h
          refine ⟨by simp, ?_⟩
          intro d hd
          rw [hkind]
          exact hk d (List.mem_reverse.mp hd)
        · exact hwf' ch h
      · rw [List.chain'_cons']
        refine ⟨?_, hchain'⟩
        intro b hb
        have := hhead' b hb
        rw [hkind, this]
        intro hcon
        exact hck' (by rw [hcon])
      · intro ch₀ h₀
        simp only [List.head?_cons, Option.some.injEq] at h₀
        rw [← h₀]
        exact hkind

/-- Chunk structure of any text. -/
theorem toChunks_wf (x : List Char) :
    (∀ ch ∈ toChunks x, ch ≠ [] ∧ ∀ c ∈ ch, (c == ' ') = chunkIsSpace ch) ∧
    List.Chain' (fun a b => chunkIsSpace a ≠ chunkIsSpace b) (toChunks x) := by
  cases x with
  | nil => exact ⟨(by intro ch hch; cases hch), (by simp [toChunks, chunksAux])⟩
  | cons c x' =>
    have h := chunksAux_wf x' [c] (c == ' ') (by simp) (by simp)
    exact ⟨h.1, h.2.1⟩

/-- The flattening of chunks restores the text. -/
theorem toChunks_flatten (x : List Char) : (toChunks x).flatten = x := by
  rw [toChunks, chunksAux_flatten]
  rfl

/-- The non-space chunks. -/
def wordFilter (cs : List (List Char)) : List (List Char) :=
  cs.filter (fun ch => !chunkIsSpace ch)

/-- A reversed all-space run is a space chunk; a reversed word run is not. -/
theorem chunkIsSpace_reverse_cons (a : Char) (t : List Char) :
    chunkIsSpace ((a :: t).reverse) = ((a :: t).getLast (by simp) == ' ') := by
  rw [chunkIsSpace, List.head?_reverse, List.getLast?_eq_getLast _ (by simp)]
  simp

/-- On space-normalised text, the non-space chunks are exactly the words. -/
theorem chunksAux_wordFilter :
    ∀ (l : List Char), (∀ c ∈ l, twIsSpace c = (c == ' ')) →
    ∀ acc : List Char,
      ((∀ c ∈ acc, c = ' ') → wordFilter (chunksAux l acc) = wordsAux l []) ∧
      ((acc ≠ [] ∧ ∀ c ∈ acc, ¬ c = ' ') → wordFilter (chunksAux l acc) = wordsAux l acc) := by
  intro l
  induction l with
  | nil =>
    intro _ acc
    constructor
    · intro hsp
      cases acc with
      | nil => rfl
      | cons a t =>
        simp only [chunksAux, List.isEmpty_cons, Bool.false_eq_true, if_false]
        have hsc : chunkIsSpace (t.reverse ++ [a]) = true := by
          rw [← List.reverse_cons, chunkIsSpace_reverse_cons]
          have := hsp ((a :: t).getLast (by simp)) (List.getLast_mem _)
          simp [this]
        simp [wordFilter, List.filter_cons, hsc, wordsAux]
    · rintro ⟨hne, hword⟩
      cases acc with
      | nil => exact absurd rfl hne
      | cons a t =>
        simp only [chunksAux, List.isEmpty_cons, Bool.false_eq_true, if_false]
        have hsc : chunkIsSpace (t.reverse ++ [a]) = false := by
          rw [← List.reverse_cons, chunkIsSpace_reverse_cons]
          have := hword ((a :: t).getLast (by simp)) (List.getLast_mem _)
          simpa using this
        simp [wordFilter, List.filter_cons, hsc, wordsAux]
  | cons c l' ih =>
    intro hnorm acc
    have hcn : twIsSpace c = (c == ' ') := hnorm c (List.mem_cons_self c l')
    have hnorm' : ∀ d ∈ l', twIsSpace d = (d == ' ') :=
      fun d hd => hnorm d (List.mem_cons_of_mem c hd)
    have ih' := ih hnorm'
    constructor
    · intro hsp
      cases acc with
      | nil =>
        show wordFilter (chunksAux l' [c]) = wordsAux (c :: l') []
        cases hcs : (c == ' ')
        · rw [(ih' [c]).2 ⟨by simp, by simpa using hcs⟩]
          simp only [wordsAux, hcn, hcs, Bool.false_eq_true, if_false]
        · have hc' : c = ' ' := by simpa using hcs
          rw [(ih' [c]).1 (by simp [hc'])]
          rw [wordsAux_ws_cons (by rw [hcn, hcs])]
          simp
      | cons a t =>
        have has : (a == ' ') = true := by
          have := hsp a (List.mem_cons_self a t)
          simp [this]
        cases hcs : (c == ' ')
        · rw [chunksAux, if_neg (by rw [has, hcs]; simp)]
          have hsc : chunkIsSpace (t.reverse ++ [a]) = true := by
            rw [← List.reverse_cons, chunkIsSpace_reverse_cons]
            have := hsp ((a :: t).getLast (by simp)) (List.getLast_mem _)
            simp [this]
          rw [show wordFilter ((a :: t).reverse :: chunksAux l' [c]) =
              wordFilter (chunksAux l' [c]) from by simp [wordFilter, List.filter_cons, hsc]]
          rw [(ih' [c]).2 ⟨by simp, by simpa using hcs⟩]
          simp only [wordsAux, hcn, hcs, Bool.false_eq_true, if_false]
        · rw [chunksAux, if_pos (by rw [has, hcs]; rfl)]
          have hc' : c = ' ' := by simpa using hcs
          rw [(ih' (c :: a :: t)).1 (by
            intro d hd
            rcases List.mem_cons.mp hd with h | h
            · rw [h, hc']
            · exact hsp d h)]
          rw [wordsAux_ws_cons (by rw [hcn, hcs])]
          simp
    · rintro ⟨hne, hword⟩
      cases acc with
      | nil => exact absurd rfl hne
      | cons a t =>
        have has : (a == ' ') = false := by
          have := hword a (List.mem_cons_self a t)
          simpa using this
        cases hcs : (c == ' ')
        · rw [chunksAux, if_pos (by rw [has, hcs]; rfl)]
          rw [(ih' (c :: a :: t)).2 ⟨by simp, by
            intro d hd
            rcases List.mem_cons.mp hd with h | h
            · rw [h]; simpa using hcs
            · exact hword d h⟩]
          simp only [wordsAux, hcn, hcs, Bool.false_eq_true, if_false]
        · rw [chunksAux, if_neg (by rw [has, hcs]; simp)]
          have hsc : chunkIsSpace (t.reverse ++ [a]) = false := by
            rw [← List.reverse_cons, chunkIsSpace_reverse_cons]
            have := hword ((a :: t).getLast (by simp)) (List.getLast_mem _)
            simpa using this
          rw [show wordFilter ((a :: t).reverse :: chunksAux l' [c]) =
              (a :: t).reverse :: wordFilter (chunksAux l' [c]) from by
            simp [wordFilter, List.filter_cons, hsc]]
          have hc' : c = ' ' := by simpa using hcs
          rw [(ih' [c]).1 (by simp [hc'])]
          rw [wordsAux_ws_cons (by rw [hcn, hcs])]
          simp

/-- A word chunk of a space-normalised text is one of its words. -/
theorem toChunks_word_mem {x : List Char}
    (hnorm : ∀ c ∈ x, twIsSpace c = (c == ' '))
    {ch : List Char} (hch : ch ∈ toChunks x) (hw : chunkIsSpace ch = false) :
    ch ∈ wordsOf x := by
  have heq : wordFilter (toChunks x) = wordsOf x := by
    rw [toChunks, wordsOf]
    exact (chunksAux_wordFilter x hnorm []).1 (by intro c hc; cases hc)
  rw [← heq]
  exact List.mem_filter.mpr ⟨hch, by simp [hw]⟩

/-! ### The wrapping invariant and stage lemmas -/

/-- Invariant carried through `_wrap_chunks`: chunks are nonempty, have
no exotic Python whitespace, any chunk wider than a line is all spaces,
and adjacent chunks touch whitespace at their junction. -/
structure ChunksInv (width : Nat) (chunks : List (List Char)) : Prop where
  nonempty : ∀ ch ∈ chunks, ch ≠ []
  pyws : ∀ ch ∈ chunks, ∀ c ∈ ch, pyIsSpace c = true → c = ' '
  size : ∀ ch ∈ chunks, (∀ c ∈ ch, c = ' ') ∨ ch.length ≤ width
  chain : List.Chain' (fun a b => a.getLast? = some ' ' ∨ b.head? = some ' ') chunks

/-- The invariant restricts to the tail. -/
theorem ChunksInv.tail {width : Nat} {ch : List Char} {chunks : List (List Char)}
    (inv : ChunksInv width (ch :: chunks)) : ChunksInv width chunks :=
  ⟨fun c h => inv.nonempty c (List.mem_cons_of_mem _ h),
   fun c h => inv.pyws c (List.mem_cons_of_mem _ h),
   fun c h => inv.size c (List.mem_cons_of_mem _ h),
   inv.chain.tail⟩

/-- The empty chunk list satisfies the invariant. -/
theorem ChunksInv.nil {width : Nat} : ChunksInv width [] :=
  ⟨fun _ h => absurd h (List.not_mem_nil _),
   fun _ h => absurd h (List.not_mem_nil _),
   fun _ h => absurd h (List.not_mem_nil _), List.chain'_nil⟩

/-- All-space runs are `textwrap` whitespace. -/
theorem ws_of_space {S : List Char} (h : ∀ c ∈ S, c = ' ') :
    ∀ c ∈ S, twIsSpace c = true :=
  fun c hc => by rw [h c hc]; decide

/-- The measure splits over append. -/
theorem chunksMeasure_append (A B : List (List Char)) :
    chunksMeasure (A ++ B) = chunksMeasure A + chunksMeasure B := by
  simp only [chunksMeasure, List.map_append, List.sum_append, List.length_append]
  ring

/-- The measure of a cons. -/
theorem chunksMeasure_cons (a : List Char) (cs : List (List Char)) :
    chunksMeasure (a :: cs) = a.length + 1 + chunksMeasure cs := by
  simp only [chunksMeasure, List.map_cons, List.sum_cons, List.length_cons]
  ring

/-- The inner greedy loop splits the chunk list. -/
theorem takeLine_append (width : Nat) :
    ∀ (cs : List (List Char)) (n : Nat),
      (takeLine width cs n).1 ++ (takeLine width cs n).2 = cs := by
  intro cs
  induction cs with
  | nil => intro n; rfl
  | cons ch rest ih =>
    intro n
    rw [takeLine]
    split_ifs with h
    · simp only [List.cons_append, ih]
    · rfl

/-- When nothing fits on an empty line, the head chunk is over-wide. -/
theorem takeLine_nil_head (width : Nat) (cs : List (List Char)) {ch : List Char}
    {rest' : List (List Char)} (h1 : (takeLine width cs 0).1 = [])
    (h2 : (takeLine width cs 0).2 = ch :: rest') : width < ch.length := by
  cases cs with
  | nil => cases h2
  | cons c cs' =>
    rw [takeLine] at h1 h2
    split_ifs at h1 h2 with h
    have h2' : c :: cs' = ch :: rest' := h2
    have hce : c = ch := ((List.cons.injEq _ _ _ _).mp h2').1
    rw [← hce]
    omega

/-- The words an emitted line contributes. -/
def optWords : Option (List Char) → List (List Char)
  | none => []
  | some l => wordsOf l

/-- `optWords` of the emitted line is the words of the kept chunks. -/
theorem optWords_ite (cur₃ : List (List Char)) :
    optWords (if cur₃.isEmpty then none else some cur₃.flatten) =
      wordsOf cur₃.flatten := by
  cases h : cur₃.isEmpty
  · rw [if_neg (by simp [h])]
    rfl
  · rw [if_pos rfl]
    rw [List.isEmpty_iff.mp h]
    rfl

/-- Dropping the trailing whitespace chunk keeps the line's words. -/
theorem dropTrailingWS_words (cur : List (List Char))
    (hok : ∀ ch ∈ cur, ∀ c ∈ ch, pyIsSpace c = true → c = ' ') :
    wordsOf (dropTrailingWS cur).flatten = wordsOf cur.flatten := by
  rw [dropTrailingWS]
  cases hl : cur.getLast? with
  | none => rfl
  | some lastC =>
    show wordsOf (if isWSChunk lastC = true then cur.dropLast else cur).flatten =
      wordsOf cur.flatten
    by_cases hws : isWSChunk lastC = true
    · rw [if_pos hws]
      obtain ⟨cur', rfl⟩ := List.getLast?_eq_some_iff.mp hl
      have hlast_mem : lastC ∈ cur' ++ [lastC] := List.mem_append.mpr (Or.inr (by simp))
      have hsp : ∀ c ∈ lastC, c = ' ' := (isWSChunk_iff (hok lastC hlast_mem)).mp hws
      rw [List.dropLast_concat, List.flatten_append]
      simp only [List.flatten_cons, List.flatten_nil, List.append_nil]
      exact (wordsOf_append_ws _ (ws_of_space hsp)).symm
    · rw [if_neg hws]

/-- Words split across a chunk-list junction whose sides touch whitespace. -/
theorem wordsOf_flatten_append (A B : List (List Char))
    (hA : ∀ ch ∈ A, ch ≠ []) (hB : ∀ ch ∈ B, ch ≠ [])
    (hbd : ∀ x ∈ A.getLast?, ∀ y ∈ B.head?,
      x.getLast? = some ' ' ∨ y.head? = some ' ') :
    wordsOf ((A ++ B).flatten) = wordsOf A.flatten ++ wordsOf B.flatten := by
  cases A with
  | nil => simp [wordsOf, wordsAux]
  | cons a A' =>
    cases B with
    | nil => simp [wordsOf, wordsAux]
    | cons b B' =>
      rw [List.flatten_append]
      apply wordsOf_append_boundary
      have hla : (a :: A').getLast? = some ((a :: A').getLast (by simp)) :=
        List.getLast?_eq_getLast _ (by simp)
      have hbd' := hbd _ hla b rfl
      rcases hbd' with h | h
      · left
        refine ⟨' ', ?_, by decide⟩
        obtain ⟨A'', hA''⟩ := List.getLast?_eq_some_iff.mp hla
        rw [hA'', List.flatten_append]
        simp only [List.flatten_cons, List.flatten_nil, List.append_nil]
        rw [List.getLast?_append_of_ne_nil _ (by
          intro hnil
          rw [hnil] at h
          cases h)]
        exact h
      · right
        refine ⟨' ', ?_, by decide⟩
        rw [List.flatten_cons]
        rw [List.head?_append_of_ne_nil _ (by
          intro hnil
          rw [hnil] at h
          cases h)]
        exact h

/-- The measure of a nonempty chunk list is positive. -/
theorem chunksMeasure_pos {cs : List (List Char)} (h : cs ≠ []) :
    1 ≤ chunksMeasure cs := by
  obtain ⟨a, t, rfl⟩ := List.exists_cons_of_ne_nil h
  rw [chunksMeasure_cons]
  omega

/-- One outer iteration after the leading-whitespace drop: the emitted
line's words followed by the words still pending are the pending words,
the invariant is preserved and the measure shrinks. -/
theorem wrapCore_spec (width : Nat) (hw : 1 ≤ width) (chunks₁ : List (List Char))
    (inv : ChunksInv width chunks₁) :
    wordsOf (dropTrailingWS (handleLongWord width (takeLine width chunks₁ 0).1
        (takeLine width chunks₁ 0).2).1).flatten ++
      wordsOf (handleLongWord width (takeLine width chunks₁ 0).1
        (takeLine width chunks₁ 0).2).2.flatten = wordsOf chunks₁.flatten ∧
    ChunksInv width (handleLongWord width (takeLine width chunks₁ 0).1
        (takeLine width chunks₁ 0).2).2 ∧
    (chunks₁ ≠ [] → chunksMeasure (handleLongWord width (takeLine width chunks₁ 0).1
        (takeLine width chunks₁ 0).2).2 < chunksMeasure chunks₁) := by
  have hsplit := takeLine_append width chunks₁ 0
  have hstuck : ∀ (ch : List Char) (rest' : List (List Char)),
      (takeLine width chunks₁ 0).1 = [] →
      (takeLine width chunks₁ 0).2 = ch :: rest' → width < ch.length :=
    fun _ _ h1 h2 => takeLine_nil_head width chunks₁ h1 h2
  generalize hP : takeLine width chunks₁ 0 = P at hsplit hstuck ⊢
  obtain ⟨p1, p2⟩ := P
  dsimp only at hsplit hstuck ⊢
  have hmem1 : ∀ ch ∈ p1, ch ∈ chunks₁ := fun ch h => by
    rw [← hsplit]; exact List.mem_append.mpr (Or.inl h)
  have hmem2 : ∀ ch ∈ p2, ch ∈ chunks₁ := fun ch h => by
    rw [← hsplit]; exact List.mem_append.mpr (Or.inr h)
  cases hp2e : p2 with
  | nil =>
    subst hp2e
    have hc1 : p1 = chunks₁ := by rw [← hsplit, List.append_nil]
    have hq : handleLongWord width p1 [] = (p1, []) := rfl
    rw [hq]
    refine ⟨?_, ChunksInv.nil, ?_⟩
    · dsimp only
      rw [show wordsOf (([] : List (List Char)).flatten) = [] from rfl, List.append_nil]
      rw [hc1]
      exact dropTrailingWS_words chunks₁ inv.pyws
    · intro hne
      have := chunksMeasure_pos hne
      have h0 : chunksMeasure ([] : List (List Char)) = 0 := rfl
      dsimp only
      omega
  | cons ch rest' =>
    subst hp2e
    have hch_mem : ch ∈ chunks₁ := hmem2 ch (List.mem_cons_self _ _)
    have hrest'_mem : ∀ c ∈ rest', c ∈ chunks₁ :=
      fun c h => hmem2 c (List.mem_cons_of_mem _ h)
    have hsplit' : p1 ++ ch :: rest' = chunks₁ := hsplit
    have hcc : List.Chain' (fun a b => a.getLast? = some ' ' ∨ b.head? = some ' ')
        (p1 ++ ch :: rest') := by rw [hsplit']; exact inv.chain
    obtain ⟨hcA, hcB, hbd⟩ := List.chain'_append.mp hcc
    by_cases hbig : width < ch.length
    · -- the over-wide chunk is an all-space run; chop it
      have hchsp : ∀ c ∈ ch, c = ' ' := by
        rcases inv.size ch hch_mem with h | h
        · exact h
        · omega
      have hsl : (if width < 1 then 1 else width - (p1.map List.length).sum) =
          width - (p1.map List.length).sum := by
        rw [if_neg (by omega)]
      have hq : handleLongWord width p1 (ch :: rest') =
          (p1 ++ [ch.take (width - (p1.map List.length).sum)],
           ch.drop (width - (p1.map List.length).sum) :: rest') := by
        simp only [handleLongWord]
        rw [if_pos hbig, hsl]
      rw [hq]
      have hs_le : width - (p1.map List.length).sum ≤ width := Nat.sub_le _ _
      have hrem_len : (ch.drop (width - (p1.map List.length).sum)).length =
          ch.length - (width - (p1.map List.length).sum) := List.length_drop _ _
      have hrem_ne : ch.drop (width - (p1.map List.length).sum) ≠ [] := by
        intro h0
        rw [h0] at hrem_len
        simp at hrem_len
        omega
      have hrem_sp : ∀ c ∈ ch.drop (width - (p1.map List.length).sum), c = ' ' :=
        fun c hc => hchsp c (List.mem_of_mem_drop hc)
      refine ⟨?_, ?_, ?_⟩
      · dsimp only
        rw [dropTrailingWS_words _ (by
          intro c hc d hd _
          rcases List.mem_append.mp hc with h | h
          · exact inv.pyws c (hmem1 c h) d hd (by assumption)
          · rw [List.mem_singleton.mp h] at hd
            exact hchsp d (List.mem_of_mem_take hd))]
        have hflat : chunks₁.flatten =
            (p1 ++ [ch.take (width - (p1.map List.length).sum)]).flatten ++
              (ch.drop (width - (p1.map List.length).sum) :: rest').flatten := by
          rw [← hsplit']
          simp only [List.flatten_append, List.flatten_cons, List.flatten_nil,
            List.append_nil, List.append_assoc]
          rw [← List.append_assoc (ch.take _) (ch.drop _), List.take_append_drop]
        rw [hflat]
        rw [wordsOf_append_boundary _ _ ?_]
        obtain ⟨c0, cs0, hc0⟩ := List.exists_cons_of_ne_nil hrem_ne
        right
        refine ⟨' ', ?_, by decide⟩
        rw [List.flatten_cons,
          List.head?_append_of_ne_nil _ hrem_ne, hc0, List.head?_cons]
        have : c0 = ' ' := hrem_sp c0 (by rw [hc0]; exact List.mem_cons_self _ _)
        rw [this]
      · refine ⟨?_, ?_, ?_, ?_⟩
        · intro c hc
          rcases List.mem_cons.mp hc with h | h
          · rw [h]; exact hrem_ne
          · exact inv.nonempty c (hrest'_mem c h)
        · intro c hc d hd
          rcases List.mem_cons.mp hc with h | h
          · intro _
            exact hrem_sp d (h ▸ hd)
          · exact inv.pyws c (hrest'_mem c h) d hd
        · intro c hc
          rcases List.mem_cons.mp hc with h | h
          · left
            intro d hd
            exact hrem_sp d (h ▸ hd)
          · exact inv.size c (hrest'_mem c h)
        · rw [List.chain'_cons']
          refine ⟨?_, hcB.tail⟩
          intro b _
          left
          have hlast : (ch.drop (width - (p1.map List.length).sum)).getLast? =
              some ((ch.drop (width - (p1.map List.length).sum)).getLast hrem_ne) :=
            List.getLast?_eq_getLast _ hrem_ne
          rw [hlast, hrem_sp _ (List.getLast_mem hrem_ne)]
      · intro _
        dsimp only
        have hm : chunksMeasure chunks₁ =
            chunksMeasure p1 + (ch.length + 1 + chunksMeasure rest') := by
          rw [← hsplit', chunksMeasure_append, chunksMeasure_cons]
        rw [hm, chunksMeasure_cons, hrem_len]
        rcases List.eq_nil_or_concat p1 with h | h
        · subst h
          have : (([] : List (List Char)).map List.length).sum = 0 := rfl
          rw [this] at *
          have h0 : chunksMeasure ([] : List (List Char)) = 0 := rfl
          omega
        · have := chunksMeasure_pos (by
            obtain ⟨l', a, rfl⟩ := h
            intro hcon
            exact absurd hcon (by simp) : p1 ≠ [])
          omega
    · -- the next chunk simply moves to the following line
      have hq : handleLongWord width p1 (ch :: rest') = (p1, ch :: rest') := by
        simp only [handleLongWord]
        rw [if_neg hbig]
      rw [hq]
      have hp1_ne : p1 ≠ [] := by
        intro h0
        exact hbig (hstuck ch rest' h0 rfl)
      refine ⟨?_, ?_, ?_⟩
      · dsimp only
        rw [dropTrailingWS_words p1 (fun c h => inv.pyws c (hmem1 c h))]
        rw [← hsplit']
        exact (wordsOf_flatten_append p1 (ch :: rest')
          (fun c h => inv.nonempty c (hmem1 c h))
          (fun c h => inv.nonempty c (hmem2 c h)) hbd).symm
      · exact ⟨fun c h => inv.nonempty c (hmem2 c h),
          fun c h => inv.pyws c (hmem2 c h),
          fun c h => inv.size c (hmem2 c h), hcB⟩
      · intro _
        dsimp only
        have hm : chunksMeasure chunks₁ =
            chunksMeasure p1 + chunksMeasure (ch :: rest') := by
          rw [← hsplit', chunksMeasure_append]
        have := chunksMeasure_pos hp1_ne
        omega

/-- One full outer iteration of `_wrap_chunks`: words are conserved, the
invariant is preserved and the measure strictly decreases. -/
theorem wrapStep_spec (width : Nat) (hw : 1 ≤ width) (first : Bool)
    (chunks : List (List Char)) (hne : chunks ≠ []) (inv : ChunksInv width chunks) :
    optWords (wrapStep width first chunks).1 ++
        wordsOf (wrapStep width first chunks).2.flatten = wordsOf chunks.flatten ∧
    ChunksInv width (wrapStep width first chunks).2 ∧
    chunksMeasure (wrapStep width first chunks).2 < chunksMeasure chunks := by
  obtain ⟨ch0, rest0, rfl⟩ := List.exists_cons_of_ne_nil hne
  by_cases hdrop : (!first && isWSChunk ch0) = true
  · have hc1 : dropLeadingWS first (ch0 :: rest0) = rest0 := by
      simp only [dropLeadingWS]
      rw [if_pos hdrop]
    have hdrop2 : isWSChunk ch0 = true := by
      simp only [Bool.and_eq_true] at hdrop
      exact hdrop.2
    have hws : ∀ c ∈ ch0, c = ' ' :=
      (isWSChunk_iff (inv.pyws ch0 (List.mem_cons_self _ _))).mp hdrop2
    have core := wrapCore_spec width hw rest0 inv.tail
    simp only [wrapStep, hc1]
    rw [optWords_ite]
    have hwordseq : wordsOf ((ch0 :: rest0).flatten) = wordsOf rest0.flatten := by
      rw [List.flatten_cons]
      exact wordsOf_ws_append (ws_of_space hws) _
    refine ⟨?_, core.2.1, ?_⟩
    · rw [hwordseq]
      exact core.1
    · rcases eq_or_ne rest0 [] with h | h
      · subst h
        have hq0 : (handleLongWord width (takeLine width ([] : List (List Char)) 0).1
            (takeLine width ([] : List (List Char)) 0).2).2 = [] := rfl
        rw [hq0, chunksMeasure_cons]
        have h0 : chunksMeasure ([] : List (List Char)) = 0 := rfl
        omega
      · have := core.2.2 h
        rw [chunksMeasure_cons]
        omega
  · have hc1 : dropLeadingWS first (ch0 :: rest0) = ch0 :: rest0 := by
      simp only [dropLeadingWS]
      rw [if_neg hdrop]
    have core := wrapCore_spec width hw (ch0 :: rest0) inv
    simp only [wrapStep, hc1]
    rw [optWords_ite]
    exact ⟨core.1, core.2.1, core.2.2 (by simp)⟩

/-- The wrapped lines carry exactly the pending words, given enough fuel. -/
theorem wrapLoop_spec (width : Nat) (hw : 1 ≤ width) :
    ∀ (fuel : Nat) (chunks acc : List (List Char)), ChunksInv width chunks →
      chunksMeasure chunks < fuel →
      ((wrapLoop width fuel chunks acc).map wordsOf).flatten =
        (acc.reverse.map wordsOf).flatten ++ wordsOf chunks.flatten := by
  intro fuel
  induction fuel with
  | zero => intro chunks acc _ h; omega
  | succ fuel ih =>
    intro chunks acc inv hm
    cases chunks with
    | nil =>
      rw [wrapLoop]
      rw [show wordsOf (([] : List (List Char)).flatten) = [] from rfl, List.append_nil]
    | cons ch chs =>
      obtain ⟨hwords, hinv, hmeas⟩ :=
        wrapStep_spec width hw acc.isEmpty (ch :: chs) (by simp) inv
      cases hln : (wrapStep width acc.isEmpty (ch :: chs)).1 with
      | some line =>
        simp only [wrapLoop, hln]
        rw [ih _ (line :: acc) hinv (by omega)]
        rw [hln] at hwords
        have hw' : wordsOf line ++
            wordsOf (wrapStep width acc.isEmpty (ch :: chs)).2.flatten =
            wordsOf ((ch :: chs)).flatten := hwords
        rw [List.reverse_cons, List.map_append, List.flatten_append]
        simp only [List.map_cons, List.map_nil, List.flatten_cons, List.flatten_nil,
          List.append_nil]
        rw [List.append_assoc, hw']
        rfl
      | none =>
        simp only [wrapLoop, hln]
        rw [ih _ acc hinv (by omega)]
        rw [hln] at hwords
        have hw' : wordsOf (wrapStep width acc.isEmpty (ch :: chs)).2.flatten =
            wordsOf ((ch :: chs)).flatten := hwords
        rw [hw']

/-- Transfer a chain along an implication valid on the list's members. -/
theorem chain'_imp_mem {α : Type} {R S : α → α → Prop} {P : α → Prop} :
    ∀ l : List α, (∀ a ∈ l, P a) → List.Chain' R l →
      (∀ a b, P a → P b → R a b → S a b) → List.Chain' S l := by
  intro l
  induction l with
  | nil => intro _ _ _; exact List.chain'_nil
  | cons a l' ih =>
    intro hP hR himp
    rw [List.chain'_cons'] at hR ⊢
    refine ⟨?_, ih (fun x hx => hP x (List.mem_cons_of_mem _ hx)) hR.2 himp⟩
    intro b hb
    have hbmem : b ∈ l' := by
      cases l' with
      | nil => cases hb
      | cons c t =>
        have hbc : c = b := by simpa using hb
        rw [← hbc]
        exact List.mem_cons_self _ _
    exact himp a b (hP a (List.mem_cons_self _ _)) (hP b (List.mem_cons_of_mem _ hbmem))
      (hR.1 b hb)

/-- C3 (amended): on hyphen-free text whose whitespace is ASCII whitespace
and whose words all fit the wrap width, the wrapping step breaks only at
whitespace and never splits a word: the words of the filled text are
exactly the words of the input. -/
theorem textwrap_fill_words (text : List Char) (width : Nat)
    (hw : 1 ≤ width)
    (hhy : '-' ∉ text)
    (hpy : ∀ c ∈ text, pyIsSpace c = true → twIsSpace c = true)
    (hlen : ∀ w ∈ wordsOf text, w.length ≤ width) :
    wordsOf (textwrapFill text width) = wordsOf text := by
  have hnorm : ∀ c ∈ munge text, twIsSpace c = (c == ' ') := fun c hc => munge_chars hc
  have hwf := toChunks_wf (munge text)
  have inv : ChunksInv width (toChunks (munge text)) := by
    refine ⟨?_, ?_, ?_, ?_⟩
    · exact fun ch h => (hwf.1 ch h).1
    · intro ch hch c hc
      exact munge_pyws hpy (by
        rw [← toChunks_flatten (munge text)]
        exact List.mem_flatten.mpr ⟨ch, hch, hc⟩)
    · intro ch hch
      cases hsp : chunkIsSpace ch
      · right
        have hmem := toChunks_word_mem hnorm hch hsp
        rw [wordsOf_munge] at hmem
        exact hlen ch hmem
      · left
        intro c hc
        have hck := (hwf.1 ch hch).2 c hc
        rw [hsp] at hck
        simpa using hck
    · refine chain'_imp_mem (toChunks (munge text))
        (fun a ha => hwf.1 a ha) hwf.2 ?_
      intro a b hPa hPb hab
      cases hsa : chunkIsSpace a
      · right
        have hsb : chunkIsSpace b = true := by
          cases hsb : chunkIsSpace b
          · exact absurd (by rw [hsa, hsb]) hab
          · rfl
        rw [chunkIsSpace] at hsb
        simpa using hsb
      · left
        have hne := hPa.1
        have hsp : ∀ c ∈ a, c = ' ' := by
          intro c hc
          have := hPa.2 c hc
          rw [hsa] at this
          simpa using this
        rw [List.getLast?_eq_getLast _ hne, hsp _ (List.getLast_mem hne)]
  rw [textwrapFill, textwrapWrap]
  rw [wordsOf_intercalate]
  rw [wrapLoop_spec width hw _ _ [] inv (Nat.lt_succ_self _)]
  simp only [List.reverse_nil, List.map_nil, List.flatten_nil, List.nil_append]
  rw [toChunks_flatten, wordsOf_munge]

/-- C3 counterexample: with `break_long_words`, a 66-character word is
split mid-word at the Latin wrap width 65, and joining the lines does not
reconstruct the trimmed text. -/
theorem textwrap_longword_counterexample :
    pyStrip (List.replicate 66 'a') = List.replicate 66 'a' ∧
    textwrapFill (pyStrip (List.replicate 66 'a')) 65 =
      List.replicate 65 'a' ++ '\n' :: ['a'] ∧
    wordsOf (textwrapFill (pyStrip (List.replicate 66 'a')) 65) ≠
      wordsOf (pyStrip (List.replicate 66 'a')) := by
  refine ⟨by decide, by decide, by decide⟩

/-- C3 witness: the amended statement on an ordinary sentence. -/
theorem textwrap_fill_words_witness :
    wordsOf (textwrapFill "Hello brave new world".data 65) =
      wordsOf "Hello brave new world".data :=
  textwrap_fill_words "Hello brave new world".data 65 (by decide) (by decide)
    (by decide) (by decide)

end SubGen
